import Mathlib

/-!
Shallow embedding of `tensorflow_transform/beam/analysis_graph_builder.py`:
the path hasher, the cache-optimizing visitor over the translated operation
graph, the cache-optimization driver, and the phase-discovery loop of `build`.
External collaborators (the `nodes` value-graph primitives, the operation
descriptors of `beam_nodes`/`analyzer_nodes`, `hashlib`, the tf `AttrValue`
protobuf and the graph-analysis oracle) are modelled from the spec where
noted; everything else is translated from the source file.
-/

/-- Byte strings are modelled as lists of natural numbers. -/
abbrev Bytes := List Nat

/-- Encoding of a string to bytes, modelling `tf.compat.as_bytes` on `str`
(character code points; the properties proved here depend only on this being
a deterministic function of the string). -/
def strBytes (s : String) : Bytes := s.data.map Char.toNat

/-- Model of the external `hashlib.sha1` digest: a deterministic function of
the input byte stream with a fixed 20-byte output, each byte below 256. The
cryptographic mixing is modelled by a simple fold; no property proved here
depends on anything but determinism and the fixed output length. -/
def sha1Model (data : Bytes) : Bytes :=
  (List.range 20).map (fun i => data.foldl (fun acc b => (acc * 31 + b + i) % 256) (i + 7))

/-- Modelled from the spec: the external tf `AttrValue` protobuf message as
used by `_serialize_op_attr` — whether it carries a `func` field directly,
whether its `list` carries `func` entries, and its deterministic byte
serialization (`SerializeToString`). -/
structure AttrValue where
  hasFunc : Bool
  listFunc : Bool
  serialized : Bytes
deriving DecidableEq, Repr

/-- Truthiness of `attr_value.HasField('func') or attr_value.list.func`. -/
def attrHasFunc (a : AttrValue) : Bool := a.hasFunc || a.listFunc

/-- Serialization loop body of `_serialize_op_attr`: walk the (already
sorted) attribute pairs, failing on the first value carrying a `func`
field, otherwise extending the result with the key and the value bytes. -/
def serializeAttrPairs : List (String × AttrValue) → Except String (List Bytes)
  | [] => .ok []
  | (key, av) :: rest =>
    if attrHasFunc av then
      .error "Unable to serialize op attributes that contain a func field"
    else
      match serializeAttrPairs rest with
      | .ok r => .ok (strBytes key :: av.serialized :: r)
      | .error e => .error e

/-- Key ordering used by `sorted(op_attr.items(), key=lambda kv: kv[0])`. -/
def attrLE (a b : String × AttrValue) : Prop := a.1 ≤ b.1

instance : DecidableRel attrLE := fun a b => inferInstanceAs (Decidable (a.1 ≤ b.1))

instance : IsTotal (String × AttrValue) attrLE := ⟨fun a b => le_total a.1 b.1⟩

instance : IsTrans (String × AttrValue) attrLE :=
  ⟨fun _ _ _ h₁ h₂ => le_trans h₁ h₂⟩

/-- Translation of `_serialize_op_attr`: deterministically serializes a tf
operation attribute map by sorting the entries by key and serializing each,
rejecting values that contain a `func` field. -/
def serialize_op_attr (op_attr : List (String × AttrValue)) : Except String (List Bytes) :=
  serializeAttrPairs (List.insertionSort attrLE op_attr)

/-- Modelled from the spec: the external TF graph node kinds dispatched on by
`_describe_path_as_analyzer_cache_hash` — a graph operation with its
`node_def.attr` map, a tensor with its output slot index, and a plain
string/bytes identifier. -/
inductive TFNode where
  | op (attrs : List (String × AttrValue))
  | tensor (value_index : Nat)
  | strId (s : Bytes)
deriving DecidableEq, Repr

/-- Local identity bytes of a known node, as computed by the body of
`_describe_path_as_analyzer_cache_hash`: serialized attributes for an
operation, the stringified output slot index for a tensor, the identifier
itself for a string/bytes value. -/
def localIdentityBytes : TFNode → Except String (List Bytes)
  | .op attrs => serialize_op_attr attrs
  | .tensor idx => .ok [strBytes (toString idx)]
  | .strId s => .ok [s]

/-- Translation of `_describe_path_as_analyzer_cache_hash`. A `None` node
with `parents` supplied trips the `assert parents is None`; a `None` parent
propagates `None`; otherwise the digest is taken over the node's local
identity bytes followed by each parent hash in caller order. -/
def describe_path_as_analyzer_cache_hash (x : Option TFNode)
    (parents : Option (List (Option Bytes))) : Except String (Option Bytes) :=
  match x with
  | none =>
    match parents with
    | none => .ok none
    | some _ => .error "AssertionError: parents is None"
  | some node =>
    let ps := parents.getD []
    if ps.any (fun p => p.isNone) then .ok none
    else
      match localIdentityBytes node with
      | .error e => .error e
      | .ok values => .ok (some (sha1Model (values.flatten ++ (ps.filterMap id).flatten)))

/-- Modelled from the spec: the kinds of operation descriptors the cache
optimizer inspects (`ApplySavedModel`, `ExtractFromDict`) or creates
(`Flatten`, `DecodeCache`, `EncodeCache`); every other descriptor is treated
generically, carrying only its class name. -/
inductive OpKind where
  | applySavedModel (phase : Nat) (dataset_key : Option String)
  | extractFromDict (keys : List String)
  | flattenOp
  | decodeCache (dataset_key : String) (cache_entry_key : Bytes) (coder : Nat)
  | encodeCache (coder : Nat)
  | other (className : String)
deriving DecidableEq, Repr

/-- Modelled from the spec: an immutable operation descriptor with its label,
declared output count, partitionability flag, optional cache coder (coders
are opaque, identified by number; `none` means not cacheable) and the
serialized attribute/field pairs its path hash folds in. -/
structure OpDef where
  kind : OpKind
  label : String
  num_outputs : Nat
  is_partitionable : Bool
  cache_coder : Option Nat
  attrBytes : List Bytes
deriving DecidableEq, Repr

/-- Modelled from the spec: `nodes.ValueNode`, a reference to one output slot
of one operation applied to ordered inputs. The operation node is collapsed
into the value node (an operation together with a slot index), which is
faithful for the structural properties proved here. -/
inductive ValueNode where
  | mk (op : OpDef) (inputs : List ValueNode) (value_index : Nat)

mutual
/-- Decidable equality on value nodes (the automatic derivation does not
handle the nested list). -/
def valueNodeDecEq : (a b : ValueNode) → Decidable (a = b)
  | .mk op1 ins1 i1, .mk op2 ins2 i2 =>
    match decEq op1 op2 with
    | isFalse h => isFalse (by intro he; injection he; contradiction)
    | isTrue h1 =>
      match valueNodeListDecEq ins1 ins2 with
      | isFalse h => isFalse (by intro he; injection he; contradiction)
      | isTrue h2 =>
        match decEq i1 i2 with
        | isFalse h => isFalse (by intro he; injection he; contradiction)
        | isTrue h3 => isTrue (by rw [h1, h2, h3])

/-- Decidable equality on lists of value nodes. -/
def valueNodeListDecEq : (a b : List ValueNode) → Decidable (a = b)
  | [], [] => isTrue rfl
  | [], _ :: _ => isFalse (by intro h; exact List.noConfusion h)
  | _ :: _, [] => isFalse (by intro h; exact List.noConfusion h)
  | x :: xs, y :: ys =>
    match valueNodeDecEq x y with
    | isFalse h => isFalse (by intro he; injection he; contradiction)
    | isTrue h1 =>
      match valueNodeListDecEq xs ys with
      | isFalse h => isFalse (by intro he; injection he; contradiction)
      | isTrue h2 => isTrue (by rw [h1, h2])
end

instance : DecidableEq ValueNode := valueNodeDecEq

/-- Python `len` of a `nodes.ValueNode`: the node is a record of two fields
(parent operation and value index), so its length is the constant 2.
Modelled from the spec's description of a value node. -/
def valueNodeLen (_ : ValueNode) : Nat := 2

/-- Outputs tuple of `nodes.OperationNode(op, inputs)`: one value node per
declared output slot. -/
def operationOutputs (op : OpDef) (inputs : List ValueNode) : List ValueNode :=
  (List.range op.num_outputs).map (fun i => ValueNode.mk op inputs i)

/-- Modelled from the spec: `nodes.apply_operation`, which applies a
single-output operation and returns its only output. -/
def apply_operation (op : OpDef) (inputs : List ValueNode) : ValueNode :=
  ValueNode.mk op inputs 0

/-- Tuple destructuring `(op_output,) = nodes.OperationNode(...).outputs`:
succeeds exactly when the operation declares one output. -/
def singleOutput (op : OpDef) (inputs : List ValueNode) : Except String ValueNode :=
  match operationOutputs op inputs with
  | [o] => .ok o
  | _ => .error "ValueError: expected a single output"

/-- Translation of the `_OptimizationView` record: the flattened value node,
the optional fine-grained per-partition mapping (an ordered dict, modelled
as an association list), the preference hint and the path hash. -/
structure OptimizationView where
  prefer_fine_grained_view : Bool
  flattened_view : ValueNode
  fine_grained_view : Option (List (String × ValueNode))
  hashed_path : Option Bytes
deriving DecidableEq

/-- Python truthiness of a `fine_grained_view`: `None` and the empty ordered
dict are falsy, a non-empty dict is truthy. -/
def fineTruthy : Option (List (String × ValueNode)) → Bool
  | none => false
  | some l => !l.isEmpty

/-- Translation of `_OptimizationView.__init__`: constructing a view that
prefers a fine-grained view which is not (truthily) provided raises. -/
def mkOptimizationView (prefer : Bool) (flat : ValueNode)
    (fine : Option (List (String × ValueNode))) (hashed : Option Bytes) :
    Except String OptimizationView :=
  if prefer && !(fineTruthy fine) then
    .error "Cannot prefer fine_grained_view when one is not provided"
  else
    .ok ⟨prefer, flat, fine, hashed⟩

/-- Association-list lookup, modelling Python dict `get`/`[]` access. -/
def alookup {κ β : Type _} [DecidableEq κ] : List (κ × β) → κ → Option β
  | [], _ => none
  | (k, v) :: rest, key => if key = k then some v else alookup rest key

/-- The output-cache mapping `cache_output_nodes`, keyed by
(dataset key, cache entry key) pairs. -/
abbrev CacheMap := List ((String × Bytes) × ValueNode)

/-- Python dict assignment `cache_output_nodes[(dataset_key, cache_key)] = v`
(newest binding shadows older ones under `alookup`). -/
def cacheInsert (m : CacheMap) (k : String × Bytes) (v : ValueNode) : CacheMap :=
  (k, v) :: m

/-- The supplied input cache dictionary: per dataset key, the collection of
cache entry keys that hold a non-`None` value. Only presence is observed by
the optimizer (`.get(dataset_key, dict()).get(cache_entry_key) is not None`). -/
abbrev InputCacheDict := List (String × List Bytes)

/-- Presence test on the input cache dictionary. -/
def cacheDictHas (cd : InputCacheDict) (dk : String) (cek : Bytes) : Bool :=
  decide (cek ∈ (alookup cd dk).getD [])

/-- Modelled from the spec: `analyzer_cache.make_cache_entry_key` derives the
cache entry key from the given bytes (a deterministic injection-preserving
tagging). -/
def make_cache_entry_key (b : Bytes) : Bytes := strBytes "__v0__" ++ b

/-- State of an `_OptimizeVisitor`: the sorted dataset keys, the optional
input cache dictionary and the tensor-key-to-path-hash mapping. The mutable
`cache_output_nodes` dict is threaded explicitly as a `CacheMap`. -/
structure OptCtx where
  dataset_keys : List String
  cache_dict : Option InputCacheDict
  tensor_keys_to_paths : List (String × Option Bytes)
deriving Repr

/-- Python class name of a descriptor, as folded into the path hash. -/
def classNameOf : OpKind → String
  | .applySavedModel _ _ => "ApplySavedModel"
  | .extractFromDict _ => "ExtractFromDict"
  | .flattenOp => "Flatten"
  | .decodeCache _ _ _ => "DecodeCache"
  | .encodeCache _ => "EncodeCache"
  | .other c => c

/-- Lookup of `self._tensor_keys_to_paths[key]` for each `ExtractFromDict`
key; a missing key raises (Python `KeyError`), a present key may still map
to `None`. -/
def keyPaths (ctx : OptCtx) : List String → Except String (List (Option Bytes))
  | [] => .ok []
  | k :: rest =>
    match alookup ctx.tensor_keys_to_paths k with
    | none => .error "KeyError: tensor key has no recorded path"
    | some p =>
      match keyPaths ctx rest with
      | .ok ps => .ok (p :: ps)
      | .error e => .error e

/-- Final hashing loop of `_make_next_hashed_path`: `None` anywhere in the
path list short-circuits to `None`, otherwise the digest of the
concatenation is produced. -/
def hashPathsOrNone (paths : List (Option Bytes)) : Option Bytes :=
  if paths.any (fun p => p.isNone) then none
  else some (sha1Model (paths.filterMap id).flatten)

/-- Translation of `_OptimizeVisitor._make_next_hashed_path`: fold the parent
hashed paths, the descriptor class name and either the looked-up tensor key
paths (for `ExtractFromDict`) or the descriptor's serialized attribute pairs
into the next path hash. -/
def make_next_hashed_path (ctx : OptCtx) (parent_hashed_paths : List (Option Bytes))
    (op : OpDef) : Except String (Option Bytes) :=
  let base := parent_hashed_paths ++ [some (strBytes (classNameOf op.kind))]
  match op.kind with
  | .extractFromDict keys =>
    match keyPaths ctx keys with
    | .error e => .error e
    | .ok ps => .ok (hashPathsOrNone (base ++ ps))
  | _ => .ok (hashPathsOrNone (base ++ op.attrBytes.map some))

/-- Translation of `_OptimizeVisitor._validate_operation_def`. -/
def validate_operation_def (op : OpDef) : Except String Unit :=
  if op.cache_coder.isSome && !op.is_partitionable then
    .error "Non partitionable OperationDefs cannot be cacheable"
  else if (op.is_partitionable || op.cache_coder.isSome) && op.num_outputs != 1 then
    .error "Cacheable OperationDefs must have exactly 1 output"
  else .ok ()

/-- Descriptor of the `DecodeCache` node created on a cache hit, carrying the
dataset key, the cache entry key, the original label and the coder. -/
def decodeCacheOpDef (dk : String) (cek : Bytes) (op : OpDef) : OpDef :=
  { kind := OpKind.decodeCache dk cek (op.cache_coder.getD 0)
    label := op.label
    num_outputs := 1
    is_partitionable := true
    cache_coder := none
    attrBytes := [] }

/-- Descriptor of the `EncodeCache` node created on a cache miss of a
cacheable operation. -/
def encodeCacheOpDef (op : OpDef) (dk : String) : OpDef :=
  { kind := OpKind.encodeCache (op.cache_coder.getD 0)
    label := "EncodeCache[" ++ op.label ++ "][" ++ dk ++ "]"
    num_outputs := 1
    is_partitionable := true
    cache_coder := none
    attrBytes := [] }

/-- The `operation_def._replace(label='...[key]')` relabeling applied to a
partitionable operation for one dataset key. -/
def withKeyLabel (op : OpDef) (dk : String) : OpDef :=
  { op with label := op.label ++ "[" ++ dk ++ "]" }

/-- The `operation_def._replace(dataset_key=key, label='...[key]')` copy
used by the phase-0 `ApplySavedModel` fine-grained construction. -/
def replaceSavedModelKey (op : OpDef) (key : String) : OpDef :=
  { op with
    kind := match op.kind with
            | OpKind.applySavedModel phase _ => OpKind.applySavedModel phase (some key)
            | k => k
    label := op.label ++ "[" ++ key ++ "]" }

/-- Per-dataset-key loop of `_apply_operation_on_fine_grained_view`: serve a
cache hit as a `DecodeCache` node, otherwise apply the re-labeled operation
to the partition's fine-grained input and, when the operation is cacheable,
record an `EncodeCache` node in the output cache map. -/
def applyFineGrainedLoop (cd : InputCacheDict) (op : OpDef)
    (fine_grained_view : List (String × ValueNode)) (cek : Bytes) :
    List String → CacheMap → Except String (List (String × ValueNode) × CacheMap)
  | [], s => .ok ([], s)
  | dk :: rest, s =>
    let step : Except String (ValueNode × CacheMap) :=
      if op.cache_coder.isSome && cacheDictHas cd dk cek then
        .ok (ValueNode.mk (decodeCacheOpDef dk cek op) [] 0, s)
      else
        match alookup fine_grained_view dk with
        | none => .error "KeyError: dataset key missing from fine grained view"
        | some value_node =>
          match singleOutput (withKeyLabel op dk) [value_node] with
          | .error e => .error e
          | .ok op_output =>
            if op.cache_coder.isSome then
              .ok (op_output, cacheInsert s (dk, cek)
                    (apply_operation (encodeCacheOpDef op dk) [op_output]))
            else .ok (op_output, s)
    match step with
    | .error e => .error e
    | .ok (op_output, s₁) =>
      match applyFineGrainedLoop cd op fine_grained_view cek rest s₁ with
      | .error e => .error e
      | .ok (tail, s₂) => .ok ((dk, op_output) :: tail, s₂)

/-- Translation of `_OptimizeVisitor._apply_operation_on_fine_grained_view`:
derive the cache entry key from the label and the hashed path (raising when
the hashed path is `None`, as the Python bytes concatenation would), then run
the per-dataset-key loop. The caller guarantees `cache_dict` is supplied. -/
def apply_operation_on_fine_grained_view (ctx : OptCtx) (op : OpDef)
    (fine_grained_view : List (String × ValueNode)) (next_hashed_path : Option Bytes)
    (s : CacheMap) : Except String (List (String × ValueNode) × CacheMap) :=
  match next_hashed_path with
  | none => .error "TypeError: cannot concatenate bytes with None"
  | some h =>
    let cek := make_cache_entry_key (strBytes op.label ++ [45] ++ h)
    applyFineGrainedLoop (ctx.cache_dict.getD []) op fine_grained_view cek
      ctx.dataset_keys s

/-- Construction of `_OptimizationView`s for each (flattened, fine) output
pair of a partitionable operation. -/
def viewsFromPairs (prefer : Bool) (hashed : Option Bytes) :
    List (ValueNode × Option (List (String × ValueNode))) →
    Except String (List OptimizationView)
  | [] => .ok []
  | (flat, fine) :: rest =>
    match mkOptimizationView prefer flat fine hashed with
    | .error e => .error e
    | .ok v =>
      match viewsFromPairs prefer hashed rest with
      | .ok vs => .ok (v :: vs)
      | .error e => .error e

/-- Assembly tail of `_visit_partitionable_operation`: the source's
assertion that the fine-grained tuple matches the flattened tuple in length,
followed by the per-output `_OptimizationView` construction. -/
def partitionableViews (op : OpDef) (upstream_view : OptimizationView) (prefer : Bool)
    (next_hashed_path : Option Bytes)
    (fine_grained_views : List (Option (List (String × ValueNode)))) (s₁ : CacheMap) :
    Except String (List OptimizationView × CacheMap) :=
  if fine_grained_views.length !=
      (operationOutputs op [upstream_view.flattened_view]).length then
    .error "AssertionError: fine and flattened output counts differ"
  else
    match viewsFromPairs prefer next_hashed_path
        ((operationOutputs op [upstream_view.flattened_view]).zip fine_grained_views) with
    | .error e => .error e
    | .ok views => .ok (views, s₁)

/-- Translation of `_OptimizeVisitor._visit_partitionable_operation`. -/
def visit_partitionable_operation (ctx : OptCtx) (op : OpDef)
    (upstream_views : List OptimizationView) (s : CacheMap) :
    Except String (List OptimizationView × CacheMap) :=
  match upstream_views with
  | [upstream_view] =>
    match make_next_hashed_path ctx [upstream_view.hashed_path] op with
    | .error e => .error e
    | .ok next_hashed_path =>
      if fineTruthy upstream_view.fine_grained_view then
        match apply_operation_on_fine_grained_view ctx op
            (upstream_view.fine_grained_view.getD []) next_hashed_path s with
        | .error e => .error e
        | .ok (fgv, s₁) =>
          partitionableViews op upstream_view
            (upstream_view.prefer_fine_grained_view ||
              (fineTruthy upstream_view.fine_grained_view && op.cache_coder.isSome))
            next_hashed_path [some fgv] s₁
      else
        partitionableViews op upstream_view
          (upstream_view.prefer_fine_grained_view ||
            (fineTruthy upstream_view.fine_grained_view && op.cache_coder.isSome))
          next_hashed_path (List.replicate op.num_outputs none) s
  | _ => .error "ValueError: expected exactly one upstream view"

/-- Fine-grained construction loop of `_visit_apply_savedmodel_operation`:
one application of the re-labeled, dataset-keyed operation per dataset key. -/
def savedModelFineGrained (op : OpDef) (flat : ValueNode) :
    List String → Except String (List (String × ValueNode))
  | [] => .ok []
  | key :: rest =>
    match singleOutput (replaceSavedModelKey op key) [flat] with
    | .error e => .error e
    | .ok v =>
      match savedModelFineGrained op flat rest with
      | .ok tail => .ok ((key, v) :: tail)
      | .error e => .error e

/-- Translation of `_OptimizeVisitor._visit_apply_savedmodel_operation`. -/
def visit_apply_savedmodel_operation (ctx : OptCtx) (op : OpDef)
    (upstream_views : List OptimizationView) (s : CacheMap) :
    Except String (List OptimizationView × CacheMap) :=
  match upstream_views with
  | [upstream_view] =>
    if fineTruthy upstream_view.fine_grained_view then
      .error "Was not expecting a fine_grained_view input for ApplySavedModel"
    else
      match savedModelFineGrained op upstream_view.flattened_view ctx.dataset_keys with
      | .error e => .error e
      | .ok fine_grained_view =>
        match singleOutput op [upstream_view.flattened_view] with
        | .error e => .error e
        | .ok flattened_view =>
          match mkOptimizationView false flattened_view (some fine_grained_view)
              (some (strBytes "APPLY_SAVEDMODEL")) with
          | .error e => .error e
          | .ok view => .ok ([view], s)
  | _ => .error "ValueError: expected exactly one upstream view"

/-- Collection of `view.fine_grained_view.values()` across all input views
in the flatten-the-cache branch of `visit`; a view without a fine-grained
dict raises, as the Python attribute access on `None` would. -/
def disaggregate : List OptimizationView → Except String (List ValueNode)
  | [] => .ok []
  | v :: rest =>
    match v.fine_grained_view with
    | none => .error "AttributeError: fine grained view is None"
    | some fgv =>
      match disaggregate rest with
      | .ok tail => .ok (fgv.map (fun kv => kv.2) ++ tail)
      | .error e => .error e

/-- Descriptor of the `beam_nodes.Flatten` node labeled after the consumer
operation, created when flattening cached fine-grained outputs. -/
def flattenOpDef (op : OpDef) : OpDef :=
  { kind := OpKind.flattenOp
    label := "FlattenCache[" ++ op.label ++ "]"
    num_outputs := 1
    is_partitionable := false
    cache_coder := none
    attrBytes := [] }

/-- Assembly tail of the generic branch of `visit`: apply the operation to
the chosen inputs and wrap every output in a view with no fine-grained part,
no preference and no hashed path. -/
def genericViews (op : OpDef) (next_inputs : List ValueNode) (s : CacheMap) :
    Except String (List OptimizationView × CacheMap) :=
  match viewsFromPairs false none
      ((operationOutputs op next_inputs).map (fun f => (f, none))) with
  | .error e => .error e
  | .ok views => .ok (views, s)

/-- Dispatch test `isinstance(operation_def, ApplySavedModel) and
operation_def.phase == 0`. -/
def isApplySavedModelPhase0 (op : OpDef) : Bool :=
  match op.kind with
  | OpKind.applySavedModel 0 _ => true
  | _ => false

/-- Translation of `_OptimizeVisitor.visit`: validate the descriptor, then
dispatch to the phase-0 `ApplySavedModel` case, the partitionable case (only
when a cache dictionary is supplied), or the generic case, which flattens
preferred fine-grained inputs through a `Flatten` node (with the source's
size assertion over Python `len` of each collected value node) and applies
the operation to flattened inputs, yielding views with no fine-grained part. -/
def optimize_visit (ctx : OptCtx) (op : OpDef) (input_values : List OptimizationView)
    (s : CacheMap) : Except String (List OptimizationView × CacheMap) :=
  match validate_operation_def op with
  | .error e => .error e
  | .ok _ =>
    if isApplySavedModelPhase0 op then
      visit_apply_savedmodel_operation ctx op input_values s
    else if ctx.cache_dict.isSome && op.is_partitionable then
      visit_partitionable_operation ctx op input_values s
    else
      if !input_values.isEmpty && input_values.any
          (fun v => fineTruthy v.fine_grained_view && v.prefer_fine_grained_view) then
        match disaggregate input_values with
        | .error e => .error e
        | .ok disaggregated_input_values =>
          if ((disaggregated_input_values.map valueNodeLen).dedup).length != 1 then
            .error "AssertionError: cache size check"
          else
            genericViews op (operationOutputs (flattenOpDef op)
              disaggregated_input_values) s
      else
        genericViews op (input_values.map (fun v => v.flattened_view)) s

/-- Translation of `_OptimizeVisitor.validate_value`: a (truthy) fine-grained
view must cover exactly the declared dataset keys. -/
def validate_value (ctx : OptCtx) (view : OptimizationView) : Except String Unit :=
  if fineTruthy view.fine_grained_view then
    if ((view.fine_grained_view.getD []).map (fun kv => kv.1)).all
         (fun k => decide (k ∈ ctx.dataset_keys)) &&
       ctx.dataset_keys.all
         (fun k => decide (k ∈ (view.fine_grained_view.getD []).map (fun kv => kv.1))) then
      .ok ()
    else .error "AssertionError: fine grained view keys differ from dataset keys"
  else .ok ()

/-- Validation of every view returned by a visit, as the traverser performs
on each produced value. -/
def validateAll (ctx : OptCtx) : List OptimizationView → Except String Unit
  | [] => .ok ()
  | v :: rest =>
    match validate_value ctx v with
    | .error e => .error e
    | .ok _ => validateAll ctx rest

mutual
/-- Modelled from the spec: the bottom-up `nodes.Traverser` applied to the
`_OptimizeVisitor` — visit the inputs, visit the operation, validate each
produced view, and select the requested output slot. (Memoization only
avoids recomputation of an identical pure result, so it is dropped.) -/
def optVisitValue (ctx : OptCtx) : ValueNode → CacheMap →
    Except String (OptimizationView × CacheMap)
  | ValueNode.mk op inputs idx, s =>
    match optVisitList ctx inputs s with
    | .error e => .error e
    | .ok (input_values, s₁) =>
      match optimize_visit ctx op input_values s₁ with
      | .error e => .error e
      | .ok (views, s₂) =>
        match validateAll ctx views with
        | .error e => .error e
        | .ok _ =>
          match views[idx]? with
          | some view => .ok (view, s₂)
          | none => .error "IndexError: value index out of range"

/-- Traversal of a list of input value nodes, left to right. -/
def optVisitList (ctx : OptCtx) : List ValueNode → CacheMap →
    Except String (List OptimizationView × CacheMap)
  | [], s => .ok ([], s)
  | v :: vs, s =>
    match optVisitValue ctx v s with
    | .error e => .error e
    | .ok (view, s₁) =>
      match optVisitList ctx vs s₁ with
      | .error e => .error e
      | .ok (views, s₂) => .ok (view :: views, s₂)
end

/-- Sorting of the dataset keys, `sorted(dataset_keys)`. -/
def sortStrings (l : List String) : List String :=
  List.insertionSort (fun a b : String => a ≤ b) l

/-- Construction of the `_OptimizeVisitor` state: `dataset_keys or set()`
sorted, the cache dictionary and the tensor-key paths. -/
def mkOptCtx (dataset_keys : Option (List String)) (cache_dict : Option InputCacheDict)
    (tkp : List (String × Option Bytes)) : OptCtx :=
  { dataset_keys := sortStrings (dataset_keys.getD [])
    cache_dict := cache_dict
    tensor_keys_to_paths := tkp }

/-- Translation of `_perform_cache_optimization`: traverse the saved-model
future with a fresh empty output cache, return its flattened view, and
return `None` in place of the output cache mapping exactly when no input
cache dictionary was supplied (asserting that the mapping is then empty). -/
def perform_cache_optimization (saved_model_future : ValueNode)
    (dataset_keys : Option (List String)) (tkp : List (String × Option Bytes))
    (cache_dict : Option InputCacheDict) :
    Except String (ValueNode × Option CacheMap) :=
  match optVisitValue (mkOptCtx dataset_keys cache_dict tkp) saved_model_future [] with
  | .error e => .error e
  | .ok (view, cache_output_nodes) =>
    match cache_dict with
    | none =>
      if cache_output_nodes.isEmpty then .ok (view.flattened_view, none)
      else .error "AssertionError: unexpected cache output nodes"
    | some _ => .ok (view.flattened_view, some cache_output_nodes)

/-- Modelled from the spec: one tensor sink of `build`'s phase loop — the
sink's tensor (identified by number) together with the tensor sinks whose
resolution its defining expression transitively needs. The readiness oracle
(`graph_tools.InitializableGraphAnalyzer` with the `_ReadyVisitor`) is
external; per the spec it reports a sink ready exactly when every sink it
depends on has been resolved in an earlier phase. -/
structure TensorSink where
  tensor : Nat
  deps : List Nat
deriving DecidableEq, Repr

/-- Readiness of one sink under the resolution state fixed at the start of a
phase iteration. -/
def sinkReady (r : List Nat) (s : TensorSink) : Bool :=
  s.deps.all (fun d => decide (d ∈ r))

/-- Loop guard `all(sink_tensors_ready.values())` of `build`. -/
def allSinksReady (sinks : List TensorSink) (r : List Nat) : Bool :=
  sinks.all (fun s => decide (s.tensor ∈ r))

/-- One iteration of `build`'s phase loop: every not-yet-resolved sink whose
dependencies are satisfied (readiness judged against the state snapshot taken
when the iteration's graph analyzer was built) is marked resolved. -/
def phaseStep (sinks : List TensorSink) (r : List Nat) : List Nat :=
  r ++ (sinks.filter (fun s => !(decide (s.tensor ∈ r)) && sinkReady r s)).map
    (fun s => s.tensor)

/-- The `while not all(sink_tensors_ready.values())` loop of `build`, with
explicit fuel standing for the number of iterations the loop is allowed;
returns the phase count on termination and `none` when the fuel runs out
with sinks still unresolved (the loop would keep running). -/
def buildPhases (sinks : List TensorSink) : Nat → List Nat → Option Nat
  | fuel, r =>
    if allSinksReady sinks r then some 0
    else
      match fuel with
      | 0 => none
      | fuel' + 1 =>
        match buildPhases sinks fuel' (phaseStep sinks r) with
        | some n => some (n + 1)
        | none => none

/-- Strict key ordering used to show sorted attribute lists are unique. -/
def attrLT (a b : String × AttrValue) : Prop := a.1 < b.1

instance : IsAntisymm (String × AttrValue) attrLT :=
  ⟨fun _ _ h₁ h₂ => ((lt_asymm h₁) h₂).elim⟩

/-- Number of sinks not yet resolved under the resolution state `r`. -/
def unresolvedCount (sinks : List TensorSink) (r : List Nat) : Nat :=
  (sinks.filter (fun s => !(decide (s.tensor ∈ r)))).length

theorem sha1Model_length (data : Bytes) : (sha1Model data).length = 20 := by
  simp [sha1Model]

theorem mkOptimizationView_ok {p : Bool} {flat fine hashed view}
    (h : mkOptimizationView p flat fine hashed = .ok view) :
    view = ⟨p, flat, fine, hashed⟩ ∧ (p = true → fineTruthy fine = true) := by
  unfold mkOptimizationView at h
  split at h
  · exact absurd h (by simp)
  · next hcond =>
    refine ⟨by injection h with h; exact h.symm, fun hp => ?_⟩
    subst hp
    simpa using hcond

theorem singleOutput_eq (op : OpDef) (inputs : List ValueNode)
    (h : op.num_outputs = 1) :
    singleOutput op inputs = .ok (ValueNode.mk op inputs 0) := by
  simp [singleOutput, operationOutputs, h, List.range_succ]

theorem singleOutput_ok {op : OpDef} {inputs : List ValueNode} {o : ValueNode}
    (h : singleOutput op inputs = .ok o) :
    op.num_outputs = 1 ∧ o = ValueNode.mk op inputs 0 := by
  unfold singleOutput operationOutputs at h
  rcases hn : op.num_outputs with _ | n
  · rw [hn] at h; simp at h
  · rcases n with _ | m
    · rw [hn] at h
      simp [List.range_succ] at h
      exact ⟨rfl, h.symm⟩
    · rw [hn, List.range_succ_eq_map, List.range_succ_eq_map] at h
      simp at h

/-- Helper: an error of `serializeAttrPairs` arises exactly from a `func`
bearing value in the list. -/
theorem serializeAttrPairs_ok_iff (l : List (String × AttrValue)) :
    (∃ r, serializeAttrPairs l = .ok r) ↔ (∀ kv ∈ l, attrHasFunc kv.2 = false) := by
  induction l with
  | nil => simp [serializeAttrPairs]
  | cons hd tl ih =>
    obtain ⟨key, av⟩ := hd
    by_cases h : attrHasFunc av
    · simp [serializeAttrPairs, h]
    · simp only [serializeAttrPairs, h, Bool.false_eq_true, if_false]
      constructor
      · rintro ⟨r, hr⟩
        rcases htl : serializeAttrPairs tl with e | r'
        · rw [htl] at hr; exact absurd hr (by simp)
        · intro kv hkv
          rcases List.mem_cons.mp hkv with hkv | hkv
          · rw [hkv]; exact Bool.eq_false_iff.mpr h
          · exact (ih.mp ⟨r', htl⟩) kv hkv
      · intro hall
        obtain ⟨r', htl⟩ := ih.mpr (fun kv hkv => hall kv (List.mem_cons_of_mem _ hkv))
        exact ⟨_, by rw [htl]⟩

theorem serializeAttrPairs_error (l : List (String × AttrValue))
    (h : ∃ kv ∈ l, attrHasFunc kv.2 = true) :
    serializeAttrPairs l =
      .error "Unable to serialize op attributes that contain a func field" := by
  induction l with
  | nil => simp at h
  | cons hd tl ih =>
    obtain ⟨key, av⟩ := hd
    by_cases hf : attrHasFunc av
    · simp [serializeAttrPairs, hf]
    · have htl : ∃ kv ∈ tl, attrHasFunc kv.2 = true := by
        rcases h with ⟨kv, hmem, hkv⟩
        rcases List.mem_cons.mp hmem with hmem | hmem
        · rw [hmem] at hkv; exact absurd hkv (by simpa using hf)
        · exact ⟨kv, hmem, hkv⟩
      simp [serializeAttrPairs, hf, ih htl]

theorem insertionSort_attr_eq_of_perm {a₁ a₂ : List (String × AttrValue)}
    (hperm : List.Perm a₁ a₂) (hnd : (a₁.map Prod.fst).Nodup) :
    List.insertionSort attrLE a₁ = List.insertionSort attrLE a₂ := by
  have hp : List.Perm (List.insertionSort attrLE a₁) (List.insertionSort attrLE a₂) :=
    ((List.perm_insertionSort attrLE a₁).trans hperm).trans
      (List.perm_insertionSort attrLE a₂).symm
  have hs₁ : (List.insertionSort attrLE a₁).Sorted attrLE := List.sorted_insertionSort _ _
  have hs₂ : (List.insertionSort attrLE a₂).Sorted attrLE := List.sorted_insertionSort _ _
  have hn₁ : ((List.insertionSort attrLE a₁).map Prod.fst).Nodup :=
    (((List.perm_insertionSort attrLE a₁).map Prod.fst).nodup_iff).mpr hnd
  have hn₂ : ((List.insertionSort attrLE a₂).map Prod.fst).Nodup := by
    have : (a₂.map Prod.fst).Nodup := ((hperm.map Prod.fst).nodup_iff).mp hnd
    exact (((List.perm_insertionSort attrLE a₂).map Prod.fst).nodup_iff).mpr this
  have hne₁ : (List.insertionSort attrLE a₁).Pairwise
      (fun a b : String × AttrValue => a.1 ≠ b.1) := (List.pairwise_map).mp hn₁
  have hne₂ : (List.insertionSort attrLE a₂).Pairwise
      (fun a b : String × AttrValue => a.1 ≠ b.1) := (List.pairwise_map).mp hn₂
  have hlt₁ : (List.insertionSort attrLE a₁).Sorted attrLT :=
    (hs₁.and hne₁).imp (fun h => lt_of_le_of_ne h.1 h.2)
  have hlt₂ : (List.insertionSort attrLE a₂).Sorted attrLT :=
    (hs₂.and hne₂).imp (fun h => lt_of_le_of_ne h.1 h.2)
  exact List.eq_of_perm_of_sorted hp hlt₁ hlt₂

/-- C9: serializing the attribute map of a graph-operation node fails with a
descriptive error whenever some attribute value embeds a sub-computation (a
`func` field, directly or inside a list); for attribute maps without such
values serialization succeeds; and the serialization is deterministic, i.e.
invariant under reordering of the attribute map entries (they are processed
in sorted key order). -/
theorem serialize_op_attr_spec (attrs attrs₁ attrs₂ : List (String × AttrValue)) :
    ((∃ kv ∈ attrs, attrHasFunc kv.2 = true) →
      serialize_op_attr attrs =
        .error "Unable to serialize op attributes that contain a func field") ∧
    ((∀ kv ∈ attrs, attrHasFunc kv.2 = false) →
      ∃ r, serialize_op_attr attrs = .ok r) ∧
    (List.Perm attrs₁ attrs₂ → (attrs₁.map Prod.fst).Nodup →
      serialize_op_attr attrs₁ = serialize_op_attr attrs₂) := by
  refine ⟨?_, ?_, ?_⟩
  · intro h
    apply serializeAttrPairs_error
    rcases h with ⟨kv, hmem, hkv⟩
    exact ⟨kv, (List.perm_insertionSort attrLE attrs).mem_iff.mpr hmem, hkv⟩
  · intro h
    apply (serializeAttrPairs_ok_iff _).mpr
    intro kv hkv
    exact h kv ((List.perm_insertionSort attrLE attrs).mem_iff.mp hkv)
  · intro hperm hnd
    unfold serialize_op_attr
    rw [insertionSort_attr_eq_of_perm hperm hnd]

/-- C9 witness: a `func`-bearing attribute map is rejected, a clean one is
serialized, and two orderings of the same map serialize identically. -/
theorem serialize_op_attr_spec_witness :
    serialize_op_attr [("f", ⟨true, false, [1]⟩)] =
      .error "Unable to serialize op attributes that contain a func field" ∧
    (∃ r, serialize_op_attr [("a", ⟨false, false, [1]⟩)] = .ok r) ∧
    serialize_op_attr [("b", ⟨false, false, [2]⟩), ("a", ⟨false, false, [1]⟩)] =
      serialize_op_attr [("a", ⟨false, false, [1]⟩), ("b", ⟨false, false, [2]⟩)] :=
  ⟨(serialize_op_attr_spec [("f", ⟨true, false, [1]⟩)] [] []).1
      ⟨("f", ⟨true, false, [1]⟩), by decide, by decide⟩,
   (serialize_op_attr_spec [("a", ⟨false, false, [1]⟩)] [] []).2.1 (by decide),
   (serialize_op_attr_spec []
      [("b", ⟨false, false, [2]⟩), ("a", ⟨false, false, [1]⟩)]
      [("a", ⟨false, false, [1]⟩), ("b", ⟨false, false, [2]⟩)]).2.2
      (by decide) (by decide)⟩

/-- C3 counterexample: the claim quantifies over every input and every list
of parent hashes, but (i) a `None` node with a parents list supplied trips
the source's `assert parents is None` instead of returning `None`, and
(ii) a non-`None` operation node whose attributes carry a `func` field
raises instead of returning a digest. -/
theorem describe_path_claim_counterexample :
    describe_path_as_analyzer_cache_hash none (some [some [0]]) =
      .error "AssertionError: parents is None" ∧
    describe_path_as_analyzer_cache_hash
        (some (TFNode.op [("f", ⟨true, false, []⟩)])) none =
      .error "Unable to serialize op attributes that contain a func field" := by
  constructor
  · rfl
  · rfl

/-- C3 (amended): the path hasher returns `None` when `x` is `None` and no
parents are supplied (supplying parents with a `None` node trips an
assertion), returns `None` when `x` is non-`None` and any supplied parent is
`None`, and otherwise — provided the node's local serialization succeeds,
i.e. no attribute carries a `func` field — returns a non-`None` digest of
fixed length 20. -/
theorem describe_path_nullability (x : Option TFNode)
    (parents : Option (List (Option Bytes))) :
    (x = none → parents = none →
      describe_path_as_analyzer_cache_hash x parents = .ok none) ∧
    (∀ node, x = some node → (parents.getD []).any (fun p => p.isNone) = true →
      describe_path_as_analyzer_cache_hash x parents = .ok none) ∧
    (∀ node, x = some node → (parents.getD []).any (fun p => p.isNone) = false →
      (∃ values, localIdentityBytes node = .ok values) →
      ∃ d, describe_path_as_analyzer_cache_hash x parents = .ok (some d) ∧
        d.length = 20) := by
  refine ⟨?_, ?_, ?_⟩
  · rintro rfl rfl
    rfl
  · rintro node rfl hany
    simp [describe_path_as_analyzer_cache_hash, hany]
  · rintro node rfl hany ⟨values, hv⟩
    refine ⟨sha1Model (values.flatten ++ (((parents.getD []).filterMap id).flatten)),
      ?_, sha1Model_length _⟩
    simp [describe_path_as_analyzer_cache_hash, hany, hv]

/-- C3 witness: a concrete string node with one known parent hashes to a
20-byte digest. -/
theorem describe_path_nullability_witness :
    ∃ d, describe_path_as_analyzer_cache_hash (some (TFNode.strId [97]))
        (some [some [1, 2]]) = .ok (some d) ∧ d.length = 20 :=
  (describe_path_nullability (some (TFNode.strId [97])) (some [some [1, 2]])).2.2
    (TFNode.strId [97]) rfl (by decide) ⟨[[97]], rfl⟩

/-- C7: the cache optimizer's per-visit descriptor validation rejects, before
any other work, an operation that declares a cache coder but is not
partitionable, and a cacheable operation whose declared output count is not
one; in both cases the visit fails with an error and produces no result. -/
theorem optimize_visit_validates_descriptor (ctx : OptCtx) (op : OpDef)
    (input_values : List OptimizationView) (s : CacheMap) :
    (op.cache_coder.isSome = true → op.is_partitionable = false →
      optimize_visit ctx op input_values s =
        .error "Non partitionable OperationDefs cannot be cacheable") ∧
    (op.cache_coder.isSome = true → op.num_outputs ≠ 1 →
      ∃ e, optimize_visit ctx op input_values s = .error e) := by
  constructor
  · intro hc hp
    simp [optimize_visit, validate_operation_def, hc, hp]
  · intro hc hn
    by_cases hp : op.is_partitionable
    · have hv : validate_operation_def op =
          .error "Cacheable OperationDefs must have exactly 1 output" := by
        simp [validate_operation_def, hc, hp, hn]
      exact ⟨"Cacheable OperationDefs must have exactly 1 output",
        by simp [optimize_visit, hv]⟩
    · have hp' : op.is_partitionable = false := by simpa using hp
      exact ⟨"Non partitionable OperationDefs cannot be cacheable",
        by simp [optimize_visit, validate_operation_def, hc, hp']⟩

/-- C7 witness: a concrete cacheable but non-partitionable descriptor and a
concrete cacheable two-output descriptor are both rejected. -/
theorem optimize_visit_validates_descriptor_witness :
    optimize_visit ⟨[], none, []⟩
        ⟨OpKind.other "Bad", "bad", 1, false, some 1, []⟩ [] [] =
      .error "Non partitionable OperationDefs cannot be cacheable" ∧
    ∃ e, optimize_visit ⟨[], none, []⟩
        ⟨OpKind.other "Bad2", "bad2", 2, true, some 1, []⟩ [] [] = .error e :=
  ⟨(optimize_visit_validates_descriptor ⟨[], none, []⟩
      ⟨OpKind.other "Bad", "bad", 1, false, some 1, []⟩ [] []).1 (by decide) (by decide),
   (optimize_visit_validates_descriptor ⟨[], none, []⟩
      ⟨OpKind.other "Bad2", "bad2", 2, true, some 1, []⟩ [] []).2 (by decide) (by decide)⟩

theorem savedModelFineGrained_eq (op : OpDef) (flat : ValueNode)
    (hout : op.num_outputs = 1) (keys : List String) :
    savedModelFineGrained op flat keys =
      .ok (keys.map (fun key =>
        (key, ValueNode.mk (replaceSavedModelKey op key) [flat] 0))) := by
  induction keys with
  | nil => rfl
  | cons k rest ih =>
    have h1 : (replaceSavedModelKey op k).num_outputs = 1 := by
      simp [replaceSavedModelKey, hout]
    simp [savedModelFineGrained, singleOutput_eq _ _ h1, ih]

/-- C6: visiting an `ApplySavedModel` operation at phase 0 produces exactly
one view, whose flattened component applies the operation once to the whole
upstream input, whose fine-grained component applies the operation once per
declared partition key with the operation re-labeled (and dataset-keyed) per
key, whose hashed path is the sentinel partitioning-root marker, and whose
preference flag is false; and it fails with an error when the upstream view
already carries a (truthy) fine-grained view. -/
theorem visit_apply_savedmodel_phase0_spec (ctx : OptCtx) (op : OpDef)
    (upstream : OptimizationView) (s : CacheMap) (dk0 : Option String)
    (hkind : op.kind = OpKind.applySavedModel 0 dk0)
    (hout : op.num_outputs = 1)
    (hval : validate_operation_def op = .ok ()) :
    (fineTruthy upstream.fine_grained_view = false →
      optimize_visit ctx op [upstream] s = .ok
        ([⟨false, ValueNode.mk op [upstream.flattened_view] 0,
           some (ctx.dataset_keys.map (fun key =>
             (key, ValueNode.mk (replaceSavedModelKey op key)
               [upstream.flattened_view] 0))),
           some (strBytes "APPLY_SAVEDMODEL")⟩], s)) ∧
    (fineTruthy upstream.fine_grained_view = true →
      optimize_visit ctx op [upstream] s =
        .error "Was not expecting a fine_grained_view input for ApplySavedModel") := by
  have hdispatch : isApplySavedModelPhase0 op = true := by
    simp [isApplySavedModelPhase0, hkind]
  constructor
  · intro hfine
    simp [optimize_visit, hval, hdispatch, visit_apply_savedmodel_operation, hfine,
      savedModelFineGrained_eq op _ hout, singleOutput_eq _ _ hout, mkOptimizationView]
  · intro hfine
    simp [optimize_visit, hval, hdispatch, visit_apply_savedmodel_operation, hfine]

/-- C6 witness: a concrete phase-0 `ApplySavedModel` over partitions
`a`, `b` yields the expected single view; dataset-key coverage and the
sentinel hash are evaluated concretely. -/
theorem visit_apply_savedmodel_phase0_spec_witness :
    optimize_visit ⟨["a", "b"], some [], []⟩
      ⟨OpKind.applySavedModel 0 none, "ApplySavedModel[0]", 1, true, none, []⟩
      [⟨false, ValueNode.mk ⟨OpKind.other "CreateSavedModel", "csm", 1, false, none, []⟩ [] 0,
        none, none⟩] [] = .ok
      ([⟨false,
         ValueNode.mk ⟨OpKind.applySavedModel 0 none, "ApplySavedModel[0]", 1, true, none, []⟩
           [ValueNode.mk ⟨OpKind.other "CreateSavedModel", "csm", 1, false, none, []⟩ [] 0] 0,
         some (["a", "b"].map (fun key =>
           (key, ValueNode.mk (replaceSavedModelKey
             ⟨OpKind.applySavedModel 0 none, "ApplySavedModel[0]", 1, true, none, []⟩ key)
             [ValueNode.mk ⟨OpKind.other "CreateSavedModel", "csm", 1, false, none, []⟩ [] 0] 0))),
         some (strBytes "APPLY_SAVEDMODEL")⟩], []) :=
  (visit_apply_savedmodel_phase0_spec ⟨["a", "b"], some [], []⟩
    ⟨OpKind.applySavedModel 0 none, "ApplySavedModel[0]", 1, true, none, []⟩
    ⟨false, ValueNode.mk ⟨OpKind.other "CreateSavedModel", "csm", 1, false, none, []⟩ [] 0,
      none, none⟩ [] none rfl rfl rfl).1 rfl

/-- C5 (code-bug evidence): the generic (non-partitionable) visit accepts
input views whose fine-grained views have different partition cardinalities
(here 1 and 2) and flattens them without any error, because the source's
assertion computes the Python length of each collected fine-grained value
node — the constant field count 2 of the node record — rather than the
number of partitions of each input; the claimed same-partition-cardinality
check never fails. The result applies the operation to the `Flatten` of all
three collected per-partition nodes, with no fine-grained view and no
preference, exactly as the rest of the claim describes. -/
theorem visit_flatten_size_check_vacuous :
    optimize_visit ⟨["a", "b"], some [], []⟩
      ⟨OpKind.other "NonPart", "Op", 1, false, none, []⟩
      [⟨true, ValueNode.mk ⟨OpKind.other "Src", "s", 1, false, none, []⟩ [] 0,
        some [("a", ValueNode.mk ⟨OpKind.other "Src", "s", 1, false, none, []⟩ [] 0)], none⟩,
       ⟨true, ValueNode.mk ⟨OpKind.other "Src", "s", 1, false, none, []⟩ [] 1,
        some [("a", ValueNode.mk ⟨OpKind.other "Src", "s", 1, false, none, []⟩ [] 1),
              ("b", ValueNode.mk ⟨OpKind.other "Src", "s", 1, false, none, []⟩ [] 2)], none⟩]
      [] = .ok
      ([⟨false,
         ValueNode.mk ⟨OpKind.other "NonPart", "Op", 1, false, none, []⟩
           [ValueNode.mk ⟨OpKind.flattenOp, "FlattenCache[Op]", 1, false, none, []⟩
             [ValueNode.mk ⟨OpKind.other "Src", "s", 1, false, none, []⟩ [] 0,
              ValueNode.mk ⟨OpKind.other "Src", "s", 1, false, none, []⟩ [] 1,
              ValueNode.mk ⟨OpKind.other "Src", "s", 1, false, none, []⟩ [] 2] 0] 0,
         none, none⟩], []) := by
  rfl

theorem alookup_cons_self {κ β : Type _} [DecidableEq κ] (m : List (κ × β)) (k : κ) (v : β) :
    alookup ((k, v) :: m) k = some v := by
  simp [alookup]

theorem alookup_cons_ne {κ β : Type _} [DecidableEq κ] (m : List (κ × β)) (k k' : κ) (v : β)
    (h : k' ≠ k) : alookup ((k, v) :: m) k' = alookup m k' := by
  simp [alookup, h]

theorem applyFineGrainedLoop_spec (cd : InputCacheDict) (op : OpDef)
    (fgv : List (String × ValueNode)) (cek : Bytes)
    (hout : op.num_outputs = 1) :
    ∀ (ks : List String) (s : CacheMap), ks.Nodup →
      (∀ k ∈ ks, (alookup fgv k).isSome = true) →
      ∃ out s', applyFineGrainedLoop cd op fgv cek ks s = .ok (out, s') ∧
        (∀ dk ck, dk ∉ ks → alookup s' (dk, ck) = alookup s (dk, ck)) ∧
        (∀ k ∈ ks,
          ((op.cache_coder.isSome && cacheDictHas cd k cek) = true →
            alookup out k = some (ValueNode.mk (decodeCacheOpDef k cek op) [] 0) ∧
            alookup s' (k, cek) = alookup s (k, cek)) ∧
          ((op.cache_coder.isSome && cacheDictHas cd k cek) = false →
            ∃ vn, alookup fgv k = some vn ∧
              alookup out k = some (ValueNode.mk (withKeyLabel op k) [vn] 0) ∧
              (op.cache_coder.isSome = true →
                alookup s' (k, cek) = some (apply_operation (encodeCacheOpDef op k)
                  [ValueNode.mk (withKeyLabel op k) [vn] 0])))) := by
  intro ks
  induction ks with
  | nil =>
    intro s _ _
    exact ⟨[], s, rfl, fun dk ck _ => rfl, by simp⟩
  | cons k₀ rest ih =>
    intro s hnd hcov
    have hk₀r : k₀ ∉ rest := (List.nodup_cons.mp hnd).1
    have hndr : rest.Nodup := (List.nodup_cons.mp hnd).2
    have hcovr : ∀ k ∈ rest, (alookup fgv k).isSome = true :=
      fun k hk => hcov k (List.mem_cons_of_mem _ hk)
    by_cases hhit : (op.cache_coder.isSome && cacheDictHas cd k₀ cek) = true
    · -- cache hit for the head key: decode node, state unchanged
      obtain ⟨out, s', hloop, hframe, hspec⟩ := ih s hndr hcovr
      refine ⟨(k₀, ValueNode.mk (decodeCacheOpDef k₀ cek op) [] 0) :: out, s', ?_, ?_, ?_⟩
      · simp only [applyFineGrainedLoop, hhit, if_true, hloop]
      · intro dk ck hdk
        exact hframe dk ck (fun hmem => hdk (List.mem_cons_of_mem _ hmem))
      · intro k hk
        rcases List.mem_cons.mp hk with rfl | hkr
        · refine ⟨fun _ => ⟨alookup_cons_self _ _ _, ?_⟩, fun hmiss => absurd hhit (by simp [hmiss])⟩
          exact hframe k cek hk₀r
        · have hne : k ≠ k₀ := fun he => hk₀r (he ▸ hkr)
          have := hspec k hkr
          refine ⟨fun hh => ⟨?_, (this.1 hh).2⟩, fun hm => ?_⟩
          · rw [alookup_cons_ne _ _ _ _ hne]; exact (this.1 hh).1
          · obtain ⟨vn, h1, h2, h3⟩ := this.2 hm
            exact ⟨vn, h1, by rw [alookup_cons_ne _ _ _ _ hne]; exact h2, h3⟩
    · -- cache miss for the head key: apply the re-labeled operation
      have hhit' : (op.cache_coder.isSome && cacheDictHas cd k₀ cek) = false := by
        simpa using hhit
      obtain ⟨vn, hvn⟩ := Option.isSome_iff_exists.mp (hcov k₀ (List.mem_cons_self _ _))
      have hso : singleOutput (withKeyLabel op k₀) [vn] =
          .ok (ValueNode.mk (withKeyLabel op k₀) [vn] 0) :=
        singleOutput_eq _ _ (by simp [withKeyLabel, hout])
      by_cases hc : op.cache_coder.isSome = true
      · -- cacheable: record the encode-cache node
        set enc := apply_operation (encodeCacheOpDef op k₀)
          [ValueNode.mk (withKeyLabel op k₀) [vn] 0] with henc
        obtain ⟨out, s', hloop, hframe, hspec⟩ :=
          ih (cacheInsert s (k₀, cek) enc) hndr hcovr
        have hhas : cacheDictHas cd k₀ cek = false := by simpa [hc] using hhit'
        refine ⟨(k₀, ValueNode.mk (withKeyLabel op k₀) [vn] 0) :: out, s', ?_, ?_, ?_⟩
        · simp [applyFineGrainedLoop, hc, hhas, hvn, hso, hloop]
        · intro dk ck hdk
          have hdkr : dk ∉ rest := fun hmem => hdk (List.mem_cons_of_mem _ hmem)
          have hdk₀ : dk ≠ k₀ := fun he => hdk (he ▸ List.mem_cons_self _ _)
          rw [hframe dk ck hdkr, cacheInsert,
            alookup_cons_ne _ _ _ _ (by simp [hdk₀])]
        · intro k hk
          rcases List.mem_cons.mp hk with rfl | hkr
          · refine ⟨fun hh => absurd hh (by simp [hhit']), fun _ => ⟨vn, hvn, ?_, fun _ => ?_⟩⟩
            · exact alookup_cons_self _ _ _
            · rw [hframe k cek hk₀r, cacheInsert, alookup_cons_self]
          · have hne : k ≠ k₀ := fun he => hk₀r (he ▸ hkr)
            have := hspec k hkr
            refine ⟨fun hh => ⟨?_, ?_⟩, fun hm => ?_⟩
            · rw [alookup_cons_ne _ _ _ _ hne]; exact (this.1 hh).1
            · rw [(this.1 hh).2, cacheInsert, alookup_cons_ne _ _ _ _ (by simp [hne])]
            · obtain ⟨vn', h1, h2, h3⟩ := this.2 hm
              exact ⟨vn', h1, by rw [alookup_cons_ne _ _ _ _ hne]; exact h2, h3⟩
      · -- not cacheable: nothing recorded
        have hc' : op.cache_coder.isSome = false := by simpa using hc
        obtain ⟨out, s', hloop, hframe, hspec⟩ := ih s hndr hcovr
        refine ⟨(k₀, ValueNode.mk (withKeyLabel op k₀) [vn] 0) :: out, s', ?_, ?_, ?_⟩
        · simp [applyFineGrainedLoop, hc', hvn, hso, hloop]
        · intro dk ck hdk
          exact hframe dk ck (fun hmem => hdk (List.mem_cons_of_mem _ hmem))
        · intro k hk
          rcases List.mem_cons.mp hk with rfl | hkr
          · refine ⟨fun hh => absurd hh (by simp [hhit']),
              fun _ => ⟨vn, hvn, alookup_cons_self _ _ _, fun hcc => absurd hcc (by simp [hc'])⟩⟩
          · have hne : k ≠ k₀ := fun he => hk₀r (he ▸ hkr)
            have := hspec k hkr
            refine ⟨fun hh => ⟨?_, (this.1 hh).2⟩, fun hm => ?_⟩
            · rw [alookup_cons_ne _ _ _ _ hne]; exact (this.1 hh).1
            · obtain ⟨vn', h1, h2, h3⟩ := this.2 hm
              exact ⟨vn', h1, by rw [alookup_cons_ne _ _ _ _ hne]; exact h2, h3⟩

/-- C1: for a partitionable operation applied on a fine-grained view with a
supplied cache dictionary, and for each declared partition key: on a cache
hit under the cache-entry-key derived from the operation's label and its
content-hash path (and only for operations declaring a cache coder), the
result for that partition is a decode-cache node and nothing is added to the
cache-output mapping for that (partition key, cache-entry-key) pair;
otherwise the operation, re-labeled with the partition key, is applied to
that partition's fine-grained input, and when the operation declares a cache
coder the encode-cache node is recorded in the mapping under that pair — so
a re-run with that entry present serves a decode node and re-emits nothing. -/
theorem apply_operation_on_fine_grained_view_spec (ctx : OptCtx) (cd : InputCacheDict)
    (op : OpDef) (fgv : List (String × ValueNode)) (h : Bytes) (cek : Bytes) (s : CacheMap)
    (hcd : ctx.cache_dict = some cd)
    (hout : op.num_outputs = 1)
    (hnd : ctx.dataset_keys.Nodup)
    (hcov : ∀ k ∈ ctx.dataset_keys, (alookup fgv k).isSome = true)
    (hcek : cek = make_cache_entry_key (strBytes op.label ++ [45] ++ h)) :
    ∃ out s', apply_operation_on_fine_grained_view ctx op fgv (some h) s = .ok (out, s') ∧
      ∀ k ∈ ctx.dataset_keys,
        ((op.cache_coder.isSome && cacheDictHas cd k cek) = true →
          alookup out k = some (ValueNode.mk (decodeCacheOpDef k cek op) [] 0) ∧
          alookup s' (k, cek) = alookup s (k, cek)) ∧
        ((op.cache_coder.isSome && cacheDictHas cd k cek) = false →
          ∃ vn, alookup fgv k = some vn ∧
            alookup out k = some (ValueNode.mk (withKeyLabel op k) [vn] 0) ∧
            (op.cache_coder.isSome = true →
              alookup s' (k, cek) = some (apply_operation (encodeCacheOpDef op k)
                [ValueNode.mk (withKeyLabel op k) [vn] 0]))) := by
  obtain ⟨out, s', hloop, _, hspec⟩ :=
    applyFineGrainedLoop_spec cd op fgv cek hout ctx.dataset_keys s hnd hcov
  refine ⟨out, s', ?_, hspec⟩
  unfold apply_operation_on_fine_grained_view
  rw [hcd]
  simpa [hcek] using hloop

/-- C1 witness: a concrete cacheable operation over partitions `a`, `b`
with a cache entry present for `a` only — partition `a` is served from
cache, partition `b` is recomputed and its encode-cache node recorded. -/
theorem apply_operation_on_fine_grained_view_spec_witness :
    ∃ out s', apply_operation_on_fine_grained_view
      ⟨["a", "b"],
       some [("a", [make_cache_entry_key (strBytes "Combine" ++ [45] ++ [9])])], []⟩
      ⟨OpKind.other "Comb", "Combine", 1, true, some 7, []⟩
      [("a", ValueNode.mk ⟨OpKind.other "Src", "s", 1, false, none, []⟩ [] 0),
       ("b", ValueNode.mk ⟨OpKind.other "Src", "s", 1, false, none, []⟩ [] 1)]
      (some [9]) [] = .ok (out, s') ∧
    ∀ k ∈ (["a", "b"] : List String),
      ((Option.isSome (some 7) &&
        cacheDictHas [("a", [make_cache_entry_key (strBytes "Combine" ++ [45] ++ [9])])] k
          (make_cache_entry_key (strBytes "Combine" ++ [45] ++ [9]))) = true →
        alookup out k = some (ValueNode.mk (decodeCacheOpDef k
          (make_cache_entry_key (strBytes "Combine" ++ [45] ++ [9]))
          ⟨OpKind.other "Comb", "Combine", 1, true, some 7, []⟩) [] 0) ∧
        alookup s' (k, make_cache_entry_key (strBytes "Combine" ++ [45] ++ [9])) =
          alookup [] (k, make_cache_entry_key (strBytes "Combine" ++ [45] ++ [9]))) ∧
      ((Option.isSome (some 7) &&
        cacheDictHas [("a", [make_cache_entry_key (strBytes "Combine" ++ [45] ++ [9])])] k
          (make_cache_entry_key (strBytes "Combine" ++ [45] ++ [9]))) = false →
        ∃ vn, alookup
            [("a", ValueNode.mk ⟨OpKind.other "Src", "s", 1, false, none, []⟩ [] 0),
             ("b", ValueNode.mk ⟨OpKind.other "Src", "s", 1, false, none, []⟩ [] 1)] k =
            some vn ∧
          alookup out k = some (ValueNode.mk
            (withKeyLabel ⟨OpKind.other "Comb", "Combine", 1, true, some 7, []⟩ k) [vn] 0) ∧
          (Option.isSome (some 7) = true →
            alookup s' (k, make_cache_entry_key (strBytes "Combine" ++ [45] ++ [9])) =
              some (apply_operation
                (encodeCacheOpDef ⟨OpKind.other "Comb", "Combine", 1, true, some 7, []⟩ k)
                [ValueNode.mk
                  (withKeyLabel ⟨OpKind.other "Comb", "Combine", 1, true, some 7, []⟩ k)
                  [vn] 0]))) :=
  apply_operation_on_fine_grained_view_spec
    ⟨["a", "b"],
     some [("a", [make_cache_entry_key (strBytes "Combine" ++ [45] ++ [9])])], []⟩
    [("a", [make_cache_entry_key (strBytes "Combine" ++ [45] ++ [9])])]
    ⟨OpKind.other "Comb", "Combine", 1, true, some 7, []⟩
    [("a", ValueNode.mk ⟨OpKind.other "Src", "s", 1, false, none, []⟩ [] 0),
     ("b", ValueNode.mk ⟨OpKind.other "Src", "s", 1, false, none, []⟩ [] 1)]
    [9] (make_cache_entry_key (strBytes "Combine" ++ [45] ++ [9])) []
    rfl rfl (by decide) (by decide) rfl

theorem viewsFromPairs_prefer {p : Bool} {hashed : Option Bytes}
    {l : List (ValueNode × Option (List (String × ValueNode)))}
    {vs : List OptimizationView} (h : viewsFromPairs p hashed l = .ok vs) :
    ∀ v ∈ vs, v.prefer_fine_grained_view = true →
      fineTruthy v.fine_grained_view = true := by
  induction l generalizing vs with
  | nil =>
    unfold viewsFromPairs at h
    injection h with h
    subst h
    simp
  | cons hd tl ih =>
    obtain ⟨flat, fine⟩ := hd
    unfold viewsFromPairs at h
    rcases hmk : mkOptimizationView p flat fine hashed with e | v₀
    · rw [hmk] at h; exact Except.noConfusion h
    · rw [hmk] at h
      rcases htl : viewsFromPairs p hashed tl with e | vs'
      · rw [htl] at h; exact Except.noConfusion h
      · rw [htl] at h
        injection h with h
        subst h
        intro v hv hp
        rcases List.mem_cons.mp hv with rfl | hv
        · obtain ⟨he, himp⟩ := mkOptimizationView_ok hmk
          subst he
          exact himp hp
        · exact ih htl v hv hp

theorem genericViews_prefer {op : OpDef} {next_inputs : List ValueNode} {s : CacheMap}
    {views : List OptimizationView} {s₂ : CacheMap}
    (h : genericViews op next_inputs s = .ok (views, s₂)) :
    ∀ v ∈ views, v.prefer_fine_grained_view = true →
      fineTruthy v.fine_grained_view = true := by
  unfold genericViews at h
  rcases hvfp : viewsFromPairs false none
      ((operationOutputs op next_inputs).map (fun f => (f, none))) with e | vs
  · rw [hvfp] at h; exact Except.noConfusion h
  · rw [hvfp] at h
    injection h with h
    obtain ⟨rfl, rfl⟩ := Prod.mk.inj h
    exact viewsFromPairs_prefer hvfp

theorem partitionableViews_prefer {op : OpDef} {uv : OptimizationView} {prefer : Bool}
    {nh : Option Bytes} {fgs : List (Option (List (String × ValueNode)))}
    {s₁ : CacheMap} {views : List OptimizationView} {s₂ : CacheMap}
    (h : partitionableViews op uv prefer nh fgs s₁ = .ok (views, s₂)) :
    ∀ v ∈ views, v.prefer_fine_grained_view = true →
      fineTruthy v.fine_grained_view = true := by
  unfold partitionableViews at h
  split at h
  · exact Except.noConfusion h
  · rcases hvfp : viewsFromPairs prefer nh
        ((operationOutputs op [uv.flattened_view]).zip fgs) with e | vs
    · rw [hvfp] at h; exact Except.noConfusion h
    · rw [hvfp] at h
      injection h with h
      obtain ⟨rfl, rfl⟩ := Prod.mk.inj h
      exact viewsFromPairs_prefer hvfp

theorem visit_asm_prefer {ctx : OptCtx} {op : OpDef} {ivs : List OptimizationView}
    {s : CacheMap} {views : List OptimizationView} {s₂ : CacheMap}
    (h : visit_apply_savedmodel_operation ctx op ivs s = .ok (views, s₂)) :
    ∀ v ∈ views, v.prefer_fine_grained_view = true →
      fineTruthy v.fine_grained_view = true := by
  cases ivs with
  | nil => simp [visit_apply_savedmodel_operation] at h
  | cons uv tl =>
    cases tl with
    | cons b tl2 => simp [visit_apply_savedmodel_operation] at h
    | nil =>
      simp only [visit_apply_savedmodel_operation] at h
      by_cases hft : fineTruthy uv.fine_grained_view = true
      · rw [if_pos hft] at h; exact Except.noConfusion h
      · rw [if_neg hft] at h
        rcases hfg : savedModelFineGrained op uv.flattened_view ctx.dataset_keys
            with e | fgv
        · rw [hfg] at h; exact Except.noConfusion h
        · simp only [hfg] at h
          rcases hso : singleOutput op [uv.flattened_view] with e | flat
          · rw [hso] at h; exact Except.noConfusion h
          · simp only [hso] at h
            rcases hmk : mkOptimizationView false flat (some fgv)
                (some (strBytes "APPLY_SAVEDMODEL")) with e | view₀
            · rw [hmk] at h; exact Except.noConfusion h
            · rw [hmk] at h
              injection h with h
              obtain ⟨rfl, rfl⟩ := Prod.mk.inj h
              intro v hv hp
              rcases List.mem_cons.mp hv with rfl | hv
              · obtain ⟨he, himp⟩ := mkOptimizationView_ok hmk
                subst he
                exact himp hp
              · simp at hv

theorem visit_part_prefer {ctx : OptCtx} {op : OpDef} {ivs : List OptimizationView}
    {s : CacheMap} {views : List OptimizationView} {s₂ : CacheMap}
    (h : visit_partitionable_operation ctx op ivs s = .ok (views, s₂)) :
    ∀ v ∈ views, v.prefer_fine_grained_view = true →
      fineTruthy v.fine_grained_view = true := by
  cases ivs with
  | nil => simp [visit_partitionable_operation] at h
  | cons uv tl =>
    cases tl with
    | cons b tl2 => simp [visit_partitionable_operation] at h
    | nil =>
      simp only [visit_partitionable_operation] at h
      rcases hnh : make_next_hashed_path ctx [uv.hashed_path] op with e | nh
      · rw [hnh] at h; exact Except.noConfusion h
      · simp only [hnh] at h
        by_cases hft : fineTruthy uv.fine_grained_view = true
        · rw [if_pos hft] at h
          rcases hap : apply_operation_on_fine_grained_view ctx op
              (uv.fine_grained_view.getD []) nh s with e | p
          · rw [hap] at h; exact Except.noConfusion h
          · obtain ⟨fgv, s₁⟩ := p
            simp only [hap] at h
            exact partitionableViews_prefer h
        · rw [if_neg hft] at h
          exact partitionableViews_prefer h

theorem optimize_visit_prefer {ctx : OptCtx} {op : OpDef}
    {ivs : List OptimizationView} {s : CacheMap}
    {views : List OptimizationView} {s₂ : CacheMap}
    (h : optimize_visit ctx op ivs s = .ok (views, s₂)) :
    ∀ v ∈ views, v.prefer_fine_grained_view = true →
      fineTruthy v.fine_grained_view = true := by
  unfold optimize_visit at h
  rcases hvd : validate_operation_def op with e | u
  · rw [hvd] at h; exact Except.noConfusion h
  · simp only [hvd] at h
    by_cases hasm : isApplySavedModelPhase0 op = true
    · rw [if_pos hasm] at h; exact visit_asm_prefer h
    · rw [if_neg hasm] at h
      by_cases hpart : (ctx.cache_dict.isSome && op.is_partitionable) = true
      · rw [if_pos hpart] at h; exact visit_part_prefer h
      · rw [if_neg hpart] at h
        by_cases hany : (!ivs.isEmpty && ivs.any
            (fun v => fineTruthy v.fine_grained_view && v.prefer_fine_grained_view)) = true
        · rw [if_pos hany] at h
          rcases hd : disaggregate ivs with e | dis
          · rw [hd] at h; exact Except.noConfusion h
          · simp only [hd] at h
            by_cases hlen : ((dis.map valueNodeLen).dedup.length != 1) = true
            · rw [if_pos hlen] at h; exact Except.noConfusion h
            · rw [if_neg hlen] at h; exact genericViews_prefer h
        · rw [if_neg hany] at h; exact genericViews_prefer h

theorem validateAll_ok_mem {ctx : OptCtx} {views : List OptimizationView}
    (h : validateAll ctx views = .ok ()) :
    ∀ v ∈ views, validate_value ctx v = .ok () := by
  induction views with
  | nil => simp
  | cons hd tl ih =>
    unfold validateAll at h
    rcases hv : validate_value ctx hd with e | u
    · rw [hv] at h; exact Except.noConfusion h
    · simp only [hv] at h
      intro v hvm
      rcases List.mem_cons.mp hvm with rfl | hvm
      · cases u; exact hv
      · exact ih h v hvm

theorem validate_value_ok {ctx : OptCtx} {view : OptimizationView}
    (h : validate_value ctx view = .ok ())
    (ht : fineTruthy view.fine_grained_view = true) :
    ∀ k, k ∈ (view.fine_grained_view.getD []).map (fun kv => kv.1) ↔
      k ∈ ctx.dataset_keys := by
  unfold validate_value at h
  rw [if_pos ht] at h
  split at h
  · next hcond =>
    simp only [Bool.and_eq_true, List.all_eq_true, decide_eq_true_eq] at hcond
    intro k
    exact ⟨fun hk => hcond.1 k hk, fun hk => hcond.2 k hk⟩
  · exact Except.noConfusion h

/-- C4: every optimization view produced (and validated) for a node during
the cache-optimizing traversal satisfies the two-part invariant — a set
preference flag implies a (truthy) fine-grained view is present, and a
present (truthy) fine-grained view covers exactly the declared dataset keys;
any violation surfaces as an error of the traversal (raised at view
construction or at validation), never as a returned view. -/
theorem optimization_view_invariant (ctx : OptCtx) (v : ValueNode) (s : CacheMap)
    (view : OptimizationView) (s' : CacheMap)
    (h : optVisitValue ctx v s = .ok (view, s')) :
    (view.prefer_fine_grained_view = true → fineTruthy view.fine_grained_view = true) ∧
    (fineTruthy view.fine_grained_view = true →
      ∀ k, k ∈ (view.fine_grained_view.getD []).map (fun kv => kv.1) ↔
        k ∈ ctx.dataset_keys) := by
  cases v with
  | mk op inputs idx =>
    unfold optVisitValue at h
    rcases hl : optVisitList ctx inputs s with e | p
    · rw [hl] at h; exact Except.noConfusion h
    · obtain ⟨ivs, s₁⟩ := p
      simp only [hl] at h
      rcases ho : optimize_visit ctx op ivs s₁ with e | q
      · rw [ho] at h; exact Except.noConfusion h
      · obtain ⟨views, s₂⟩ := q
        simp only [ho] at h
        rcases hva : validateAll ctx views with e | u
        · rw [hva] at h; exact Except.noConfusion h
        · cases u
          simp only [hva] at h
          rcases hg : views[idx]? with _ | view₀
          · rw [hg] at h; exact Except.noConfusion h
          · simp only [hg] at h
            injection h with h
            obtain ⟨rfl, rfl⟩ := Prod.mk.inj h
            have hmem : view₀ ∈ views := List.getElem?_mem hg
            exact ⟨optimize_visit_prefer ho view₀ hmem,
              validate_value_ok (validateAll_ok_mem hva view₀ hmem)⟩

/-- C4 witness: a concrete traversal of a cacheable chain over partitions
`a`, `b` succeeds, and the produced view satisfies both invariant parts by
the theorem. -/
theorem optimization_view_invariant_witness :
    ∃ view s', optVisitValue ⟨["a", "b"], some [], []⟩
        (ValueNode.mk ⟨OpKind.other "Comb", "Combine", 1, true, some 7, []⟩
          [ValueNode.mk ⟨OpKind.applySavedModel 0 none, "ASM", 1, true, none, []⟩
            [ValueNode.mk ⟨OpKind.other "CreateSavedModel", "csm", 1, false, none, []⟩ [] 0]
            0] 0) [] = .ok (view, s') ∧
      (view.prefer_fine_grained_view = true → fineTruthy view.fine_grained_view = true) ∧
      (fineTruthy view.fine_grained_view = true →
        ∀ k, k ∈ (view.fine_grained_view.getD []).map (fun kv => kv.1) ↔
          k ∈ (⟨["a", "b"], some [], []⟩ : OptCtx).dataset_keys) := by
  have hok : (optVisitValue ⟨["a", "b"], some [], []⟩
      (ValueNode.mk ⟨OpKind.other "Comb", "Combine", 1, true, some 7, []⟩
        [ValueNode.mk ⟨OpKind.applySavedModel 0 none, "ASM", 1, true, none, []⟩
          [ValueNode.mk ⟨OpKind.other "CreateSavedModel", "csm", 1, false, none, []⟩ [] 0]
          0] 0) []).toOption.isSome = true := by decide
  rcases hres : optVisitValue ⟨["a", "b"], some [], []⟩
      (ValueNode.mk ⟨OpKind.other "Comb", "Combine", 1, true, some 7, []⟩
        [ValueNode.mk ⟨OpKind.applySavedModel 0 none, "ASM", 1, true, none, []⟩
          [ValueNode.mk ⟨OpKind.other "CreateSavedModel", "csm", 1, false, none, []⟩ [] 0]
          0] 0) [] with e | p
  · rw [hres] at hok
    simp [Except.toOption] at hok
  · obtain ⟨view, s'⟩ := p
    have hinv := optimization_view_invariant ⟨["a", "b"], some [], []⟩
      (ValueNode.mk ⟨OpKind.other "Comb", "Combine", 1, true, some 7, []⟩
        [ValueNode.mk ⟨OpKind.applySavedModel 0 none, "ASM", 1, true, none, []⟩
          [ValueNode.mk ⟨OpKind.other "CreateSavedModel", "csm", 1, false, none, []⟩ [] 0]
          0] 0) [] view s' hres
    exact ⟨view, s', rfl, hinv.1, hinv.2⟩

theorem genericViews_state {op : OpDef} {ni : List ValueNode} {s : CacheMap}
    {views : List OptimizationView} {s₂ : CacheMap}
    (h : genericViews op ni s = .ok (views, s₂)) : s₂ = s := by
  unfold genericViews at h
  rcases hvfp : viewsFromPairs false none
      ((operationOutputs op ni).map (fun f => (f, none))) with e | vs
  · rw [hvfp] at h; exact Except.noConfusion h
  · rw [hvfp] at h
    injection h with h
    exact (Prod.mk.inj h).2.symm

theorem visit_asm_state {ctx : OptCtx} {op : OpDef} {ivs : List OptimizationView}
    {s : CacheMap} {views : List OptimizationView} {s₂ : CacheMap}
    (h : visit_apply_savedmodel_operation ctx op ivs s = .ok (views, s₂)) : s₂ = s := by
  cases ivs with
  | nil => simp [visit_apply_savedmodel_operation] at h
  | cons uv tl =>
    cases tl with
    | cons b tl2 => simp [visit_apply_savedmodel_operation] at h
    | nil =>
      simp only [visit_apply_savedmodel_operation] at h
      by_cases hft : fineTruthy uv.fine_grained_view = true
      · rw [if_pos hft] at h; exact Except.noConfusion h
      · rw [if_neg hft] at h
        rcases hfg : savedModelFineGrained op uv.flattened_view ctx.dataset_keys
            with e | fgv
        · rw [hfg] at h; exact Except.noConfusion h
        · simp only [hfg] at h
          rcases hso : singleOutput op [uv.flattened_view] with e | flat
          · rw [hso] at h; exact Except.noConfusion h
          · simp only [hso] at h
            rcases hmk : mkOptimizationView false flat (some fgv)
                (some (strBytes "APPLY_SAVEDMODEL")) with e | view₀
            · rw [hmk] at h; exact Except.noConfusion h
            · simp only [hmk] at h
              injection h with h
              exact (Prod.mk.inj h).2.symm

theorem optimize_visit_cacheNone {ctx : OptCtx} {op : OpDef}
    {ivs : List OptimizationView} {s : CacheMap}
    {views : List OptimizationView} {s₂ : CacheMap}
    (hcd : ctx.cache_dict = none)
    (h : optimize_visit ctx op ivs s = .ok (views, s₂)) : s₂ = s := by
  unfold optimize_visit at h
  rcases hvd : validate_operation_def op with e | u
  · rw [hvd] at h; exact Except.noConfusion h
  · simp only [hvd] at h
    by_cases hasm : isApplySavedModelPhase0 op = true
    · rw [if_pos hasm] at h; exact visit_asm_state h
    · rw [if_neg hasm] at h
      have hpart : (ctx.cache_dict.isSome && op.is_partitionable) = false := by
        simp [hcd]
      rw [if_neg (by simp [hpart])] at h
      by_cases hany : (!ivs.isEmpty && ivs.any
          (fun v => fineTruthy v.fine_grained_view && v.prefer_fine_grained_view)) = true
      · rw [if_pos hany] at h
        rcases hd : disaggregate ivs with e | dis
        · rw [hd] at h; exact Except.noConfusion h
        · simp only [hd] at h
          by_cases hlen : ((dis.map valueNodeLen).dedup.length != 1) = true
          · rw [if_pos hlen] at h; exact Except.noConfusion h
          · rw [if_neg hlen] at h; exact genericViews_state h
      · rw [if_neg hany] at h; exact genericViews_state h

theorem optVisit_cacheNone (ctx : OptCtx) (hcd : ctx.cache_dict = none) :
    ∀ n : Nat,
      (∀ v : ValueNode, sizeOf v ≤ n → ∀ s r,
        optVisitValue ctx v s = .ok r → r.2 = s) ∧
      (∀ l : List ValueNode, sizeOf l ≤ n → ∀ s r,
        optVisitList ctx l s = .ok r → r.2 = s) := by
  intro n
  induction n using Nat.strong_induction_on with
  | _ n ih =>
    constructor
    · intro v hn s r h
      cases v with
      | mk op inputs idx =>
        unfold optVisitValue at h
        rcases hl : optVisitList ctx inputs s with e | p
        · rw [hl] at h; exact Except.noConfusion h
        · obtain ⟨ivs, s₁⟩ := p
          simp only [hl] at h
          rcases ho : optimize_visit ctx op ivs s₁ with e | q
          · rw [ho] at h; exact Except.noConfusion h
          · obtain ⟨views, s₂⟩ := q
            simp only [ho] at h
            rcases hva : validateAll ctx views with e | u
            · rw [hva] at h; exact Except.noConfusion h
            · cases u
              simp only [hva] at h
              rcases hg : views[idx]? with _ | view₀
              · rw [hg] at h; exact Except.noConfusion h
              · simp only [hg] at h
                injection h with h
                have hsz : sizeOf inputs < sizeOf (ValueNode.mk op inputs idx) := by
                  simp only [ValueNode.mk.sizeOf_spec]
                  omega
                have hs₁ : s₁ = s := by
                  have hlt : sizeOf inputs < n := lt_of_lt_of_le hsz hn
                  exact (ih (sizeOf inputs) hlt).2 inputs le_rfl s (ivs, s₁) hl
                have hs₂ : s₂ = s₁ := optimize_visit_cacheNone hcd ho
                rw [← h, hs₂, hs₁]
    · intro l hn s r h
      cases l with
      | nil =>
        unfold optVisitList at h
        injection h with h
        rw [← h]
      | cons v vs =>
        unfold optVisitList at h
        rcases hv : optVisitValue ctx v s with e | p
        · rw [hv] at h; exact Except.noConfusion h
        · obtain ⟨view, s₁⟩ := p
          simp only [hv] at h
          rcases hl : optVisitList ctx vs s₁ with e | q
          · rw [hl] at h; exact Except.noConfusion h
          · obtain ⟨views, s₂⟩ := q
            simp only [hl] at h
            injection h with h
            have hszv : sizeOf v < sizeOf (v :: vs) := by
              simp only [List.cons.sizeOf_spec]
              omega
            have hszl : sizeOf vs < sizeOf (v :: vs) := by
              simp only [List.cons.sizeOf_spec]
              omega
            have hs₁ : s₁ = s :=
              (ih (sizeOf v) (lt_of_lt_of_le hszv hn)).1 v le_rfl s (view, s₁) hv
            have hs₂ : s₂ = s₁ :=
              (ih (sizeOf vs) (lt_of_lt_of_le hszl hn)).2 vs le_rfl s₁ (views, s₂) hl
            rw [← h, hs₂, hs₁]

/-- C8: the cache-output mapping returned by `_perform_cache_optimization`
is `None` exactly when the supplied cache dictionary is `None` (caching
disabled); with a cache dictionary supplied the returned mapping is a real
(possibly empty) mapping; and with caching disabled no cache-output entries
are produced at all, so the source's assertion passes and the result is the
flattened view paired with `None`. -/
theorem perform_cache_optimization_mapping (smf : ValueNode)
    (dataset_keys : Option (List String)) (tkp : List (String × Option Bytes))
    (cache_dict : Option InputCacheDict) :
    (∀ opt co, perform_cache_optimization smf dataset_keys tkp cache_dict =
        .ok (opt, co) → (co = none ↔ cache_dict = none)) ∧
    (cache_dict = none →
      ∀ r, optVisitValue (mkOptCtx dataset_keys cache_dict tkp) smf [] = .ok r →
        perform_cache_optimization smf dataset_keys tkp cache_dict =
          .ok (r.1.flattened_view, none)) := by
  constructor
  · intro opt co h
    unfold perform_cache_optimization at h
    rcases hres : optVisitValue (mkOptCtx dataset_keys cache_dict tkp) smf []
        with e | p
    · rw [hres] at h; exact Except.noConfusion h
    · obtain ⟨view, cache_output_nodes⟩ := p
      simp only [hres] at h
      cases cache_dict with
      | none =>
        by_cases hemp : cache_output_nodes.isEmpty = true
        · rw [if_pos hemp] at h
          injection h with h
          rw [← (Prod.mk.inj h).2]
          simp
        · rw [if_neg hemp] at h; exact Except.noConfusion h
      | some cd =>
        injection h with h
        rw [← (Prod.mk.inj h).2]
        simp
  · intro hcd r hres
    have hstate : r.2 = [] :=
      ((optVisit_cacheNone (mkOptCtx dataset_keys cache_dict tkp)
        (by simp [mkOptCtx, hcd]) (sizeOf smf)).1 smf le_rfl [] r hres)
    subst hcd
    unfold perform_cache_optimization
    obtain ⟨view, cache_output_nodes⟩ := r
    simp only at hstate
    subst hstate
    simp [hres]

/-- C8 witness: with caching disabled on a concrete graph the returned
mapping is `None` and the traversal's cache output is empty. -/
theorem perform_cache_optimization_mapping_witness :
    ∃ opt, perform_cache_optimization
      (ValueNode.mk ⟨OpKind.other "Comb", "Combine", 1, true, some 7, []⟩
        [ValueNode.mk ⟨OpKind.applySavedModel 0 none, "ASM", 1, true, none, []⟩
          [ValueNode.mk ⟨OpKind.other "CreateSavedModel", "csm", 1, false, none, []⟩ [] 0]
          0] 0) none [] none = .ok (opt, none) := by
  have hok : (optVisitValue (mkOptCtx none none [])
      (ValueNode.mk ⟨OpKind.other "Comb", "Combine", 1, true, some 7, []⟩
        [ValueNode.mk ⟨OpKind.applySavedModel 0 none, "ASM", 1, true, none, []⟩
          [ValueNode.mk ⟨OpKind.other "CreateSavedModel", "csm", 1, false, none, []⟩ [] 0]
          0] 0) []).toOption.isSome = true := by decide
  rcases hres : optVisitValue (mkOptCtx none none [])
      (ValueNode.mk ⟨OpKind.other "Comb", "Combine", 1, true, some 7, []⟩
        [ValueNode.mk ⟨OpKind.applySavedModel 0 none, "ASM", 1, true, none, []⟩
          [ValueNode.mk ⟨OpKind.other "CreateSavedModel", "csm", 1, false, none, []⟩ [] 0]
          0] 0) [] with e | r
  · rw [hres] at hok
    simp [Except.toOption] at hok
  · exact ⟨r.1.flattened_view,
      (perform_cache_optimization_mapping
        (ValueNode.mk ⟨OpKind.other "Comb", "Combine", 1, true, some 7, []⟩
          [ValueNode.mk ⟨OpKind.applySavedModel 0 none, "ASM", 1, true, none, []⟩
            [ValueNode.mk ⟨OpKind.other "CreateSavedModel", "csm", 1, false, none, []⟩ [] 0]
            0] 0) none [] none).2 rfl r hres⟩

theorem operationOutputs_index (op : OpDef) (inputs : List ValueNode) (i : Nat) :
    (operationOutputs op inputs)[i]? =
      if i < op.num_outputs then some (ValueNode.mk op inputs i) else none := by
  unfold operationOutputs
  rw [List.getElem?_map]
  by_cases hi : i < op.num_outputs
  · rw [if_pos hi, List.getElem?_range hi]
    rfl
  · rw [if_neg hi, List.getElem?_eq_none (by simpa using Nat.le_of_not_lt hi)]
    rfl

theorem zip_getElem?_some {α β : Type _} :
    ∀ (l₁ : List α) (l₂ : List β) (i : Nat) (pr : α × β),
      (l₁.zip l₂)[i]? = some pr → l₁[i]? = some pr.1 ∧ l₂[i]? = some pr.2 := by
  intro l₁
  induction l₁ with
  | nil => intro l₂ i pr h; simp at h
  | cons a as ih =>
    intro l₂ i pr h
    cases l₂ with
    | nil => simp at h
    | cons b bs =>
      cases i with
      | zero =>
        simp only [List.zip_cons_cons, List.getElem?_cons_zero] at h ⊢
        injection h with h
        rw [← h]
        exact ⟨rfl, rfl⟩
      | succ j =>
        simp only [List.zip_cons_cons, List.getElem?_cons_succ] at h ⊢
        exact ih bs j pr h

theorem viewsFromPairs_index {p : Bool} {hashed : Option Bytes}
    {l : List (ValueNode × Option (List (String × ValueNode)))}
    {vs : List OptimizationView} (h : viewsFromPairs p hashed l = .ok vs) :
    ∀ i : Nat, vs[i]? = (l[i]?).map
      (fun (pr : ValueNode × Option (List (String × ValueNode))) =>
        (⟨p, pr.1, pr.2, hashed⟩ : OptimizationView)) := by
  induction l generalizing vs with
  | nil =>
    unfold viewsFromPairs at h
    injection h with h
    subst h
    intro i
    simp
  | cons hd tl ih =>
    obtain ⟨flat, fine⟩ := hd
    unfold viewsFromPairs at h
    rcases hmk : mkOptimizationView p flat fine hashed with e | v₀
    · rw [hmk] at h; exact Except.noConfusion h
    · rw [hmk] at h
      rcases htl : viewsFromPairs p hashed tl with e | vs'
      · rw [htl] at h; exact Except.noConfusion h
      · rw [htl] at h
        injection h with h
        subst h
        intro i
        cases i with
        | zero =>
          simp only [List.getElem?_cons_zero]
          rw [(mkOptimizationView_ok hmk).1]
          rfl
        | succ j =>
          simp only [List.getElem?_cons_succ]
          exact ih htl j

theorem genericViews_index {op : OpDef} {ni : List ValueNode} {s : CacheMap}
    {views : List OptimizationView} {s₂ : CacheMap}
    (h : genericViews op ni s = .ok (views, s₂)) :
    s₂ = s ∧ ∀ (i : Nat) (view : OptimizationView), views[i]? = some view →
      view = ⟨false, ValueNode.mk op ni i, none, none⟩ := by
  unfold genericViews at h
  rcases hvfp : viewsFromPairs false none
      ((operationOutputs op ni).map (fun f => (f, none))) with e | vs
  · rw [hvfp] at h; exact Except.noConfusion h
  · rw [hvfp] at h
    injection h with h
    obtain ⟨rfl, rfl⟩ := Prod.mk.inj h
    refine ⟨rfl, ?_⟩
    intro i view hv
    have hidx := viewsFromPairs_index hvfp i
    rw [hv, List.getElem?_map, operationOutputs_index] at hidx
    by_cases hi : i < op.num_outputs
    · rw [if_pos hi] at hidx
      simp at hidx
      exact hidx
    · rw [if_neg hi] at hidx
      simp at hidx

theorem partitionableViews_replicate {op : OpDef} {uv : OptimizationView}
    {prefer : Bool} {nh : Option Bytes} {n : Nat} {s : CacheMap}
    {views : List OptimizationView} {s₂ : CacheMap}
    (h : partitionableViews op uv prefer nh (List.replicate n none) s = .ok (views, s₂)) :
    s₂ = s ∧ ∀ (i : Nat) (view : OptimizationView), views[i]? = some view →
      view = ⟨prefer, ValueNode.mk op [uv.flattened_view] i, none, nh⟩ := by
  unfold partitionableViews at h
  split at h
  · exact Except.noConfusion h
  · rcases hvfp : viewsFromPairs prefer nh
        ((operationOutputs op [uv.flattened_view]).zip (List.replicate n none))
        with e | vs
    · rw [hvfp] at h; exact Except.noConfusion h
    · rw [hvfp] at h
      injection h with h
      obtain ⟨rfl, rfl⟩ := Prod.mk.inj h
      refine ⟨rfl, ?_⟩
      intro i view hv
      have hidx := viewsFromPairs_index hvfp i
      rw [hv] at hidx
      rcases hz : ((operationOutputs op [uv.flattened_view]).zip
          (List.replicate n none))[i]? with _ | pr
      · rw [hz] at hidx; simp at hidx
      · rw [hz] at hidx
        simp only [Option.map] at hidx
        injection hidx with hidx
        obtain ⟨h1, h2⟩ := zip_getElem?_some _ _ _ _ hz
        rw [operationOutputs_index] at h1
        by_cases hi : i < op.num_outputs
        · rw [if_pos hi] at h1
          injection h1 with h1
          have h2' : pr.2 = none := by
            rw [List.getElem?_replicate] at h2
            split at h2
            · injection h2 with h2; exact h2.symm
            · exact Option.noConfusion h2
          rw [hidx, ← h1, h2']
        · rw [if_neg hi] at h1
          exact Option.noConfusion h1

theorem optimize_visit_emptyKeys {ctx : OptCtx} {op : OpDef}
    {ivs : List OptimizationView} {s : CacheMap}
    {views : List OptimizationView} {s₂ : CacheMap}
    (hdk : ctx.dataset_keys = [])
    (hin : ∀ v ∈ ivs, fineTruthy v.fine_grained_view = false ∧
      v.prefer_fine_grained_view = false)
    (h : optimize_visit ctx op ivs s = .ok (views, s₂)) :
    (∀ (i : Nat) (view : OptimizationView), views[i]? = some view →
      view.flattened_view = ValueNode.mk op (ivs.map (fun v => v.flattened_view)) i ∧
      fineTruthy view.fine_grained_view = false ∧
      view.prefer_fine_grained_view = false) ∧ s₂ = s := by
  unfold optimize_visit at h
  rcases hvd : validate_operation_def op with e | u
  · rw [hvd] at h; exact Except.noConfusion h
  · simp only [hvd] at h
    by_cases hasm : isApplySavedModelPhase0 op = true
    · -- phase-0 ApplySavedModel branch
      rw [if_pos hasm] at h
      cases ivs with
      | nil => simp [visit_apply_savedmodel_operation] at h
      | cons uv tl =>
        cases tl with
        | cons b tl2 => simp [visit_apply_savedmodel_operation] at h
        | nil =>
          obtain ⟨huf, hup⟩ := hin uv (List.mem_cons_self _ _)
          simp only [visit_apply_savedmodel_operation] at h
          rw [if_neg (by simp [huf])] at h
          rw [hdk] at h
          simp only [savedModelFineGrained] at h
          rcases hso : singleOutput op [uv.flattened_view] with e | flat
          · rw [hso] at h; exact Except.noConfusion h
          · simp only [hso] at h
            simp only [mkOptimizationView, fineTruthy, List.isEmpty_nil,
              Bool.not_true, Bool.and_false, Bool.false_eq_true, if_false] at h
            injection h with h
            obtain ⟨rfl, rfl⟩ := Prod.mk.inj h
            obtain ⟨hn1, hflat⟩ := singleOutput_ok hso
            refine ⟨?_, rfl⟩
            intro i view hv
            cases i with
            | zero =>
              simp only [List.getElem?_cons_zero] at hv
              injection hv with hv
              rw [← hv, hflat]
              exact ⟨rfl, rfl, rfl⟩
            | succ j => simp at hv
    · rw [if_neg hasm] at h
      by_cases hpart : (ctx.cache_dict.isSome && op.is_partitionable) = true
      · -- partitionable branch (upstream has no truthy fine-grained view)
        rw [if_pos hpart] at h
        cases ivs with
        | nil => simp [visit_partitionable_operation] at h
        | cons uv tl =>
          cases tl with
          | cons b tl2 => simp [visit_partitionable_operation] at h
          | nil =>
            obtain ⟨huf, hup⟩ := hin uv (List.mem_cons_self _ _)
            simp only [visit_partitionable_operation] at h
            rcases hnh : make_next_hashed_path ctx [uv.hashed_path] op with e | nh
            · rw [hnh] at h; exact Except.noConfusion h
            · simp only [hnh] at h
              rw [if_neg (by simp [huf])] at h
              obtain ⟨hs, hview⟩ := partitionableViews_replicate h
              refine ⟨?_, hs⟩
              intro i view hv
              have := hview i view hv
              rw [this]
              refine ⟨rfl, rfl, ?_⟩
              simp [hup, huf]
      · -- generic branch
        rw [if_neg hpart] at h
        have hany : (ivs.any
            (fun v => fineTruthy v.fine_grained_view &&
              v.prefer_fine_grained_view)) = false := by
          apply List.any_eq_false.mpr
          intro v hv
          obtain ⟨h1, h2⟩ := hin v hv
          simp [h1, h2]
        rw [if_neg (by simp [hany])] at h
        obtain ⟨hs, hview⟩ := genericViews_index h
        refine ⟨?_, hs⟩
        intro i view hv
        have := hview i view hv
        rw [this]
        exact ⟨rfl, rfl, rfl⟩

theorem optVisit_emptyKeys_aux (ctx : OptCtx) (hdk : ctx.dataset_keys = []) :
    ∀ n : Nat,
      (∀ v : ValueNode, sizeOf v ≤ n → ∀ s view s',
        optVisitValue ctx v s = .ok (view, s') →
          view.flattened_view = v ∧ fineTruthy view.fine_grained_view = false ∧
          view.prefer_fine_grained_view = false ∧ s' = s) ∧
      (∀ l : List ValueNode, sizeOf l ≤ n → ∀ s views s',
        optVisitList ctx l s = .ok (views, s') →
          views.map (fun v => v.flattened_view) = l ∧
          (∀ v ∈ views, fineTruthy v.fine_grained_view = false ∧
            v.prefer_fine_grained_view = false) ∧ s' = s) := by
  intro n
  induction n using Nat.strong_induction_on with
  | _ n ih =>
    constructor
    · intro v hn s view s' h
      cases v with
      | mk op inputs idx =>
        unfold optVisitValue at h
        rcases hl : optVisitList ctx inputs s with e | p
        · rw [hl] at h; exact Except.noConfusion h
        · obtain ⟨ivs, s₁⟩ := p
          simp only [hl] at h
          rcases ho : optimize_visit ctx op ivs s₁ with e | q
          · rw [ho] at h; exact Except.noConfusion h
          · obtain ⟨views, s₂⟩ := q
            simp only [ho] at h
            rcases hva : validateAll ctx views with e | u
            · rw [hva] at h; exact Except.noConfusion h
            · cases u
              simp only [hva] at h
              rcases hg : views[idx]? with _ | view₀
              · rw [hg] at h; exact Except.noConfusion h
              · simp only [hg] at h
                injection h with h
                obtain ⟨rfl, rfl⟩ := Prod.mk.inj h
                have hsz : sizeOf inputs < sizeOf (ValueNode.mk op inputs idx) := by
                  simp only [ValueNode.mk.sizeOf_spec]
                  omega
                obtain ⟨hmap, hall, hs₁⟩ :=
                  (ih (sizeOf inputs) (lt_of_lt_of_le hsz hn)).2 inputs le_rfl
                    s ivs s₁ hl
                obtain ⟨hview, hs₂⟩ := optimize_visit_emptyKeys hdk hall ho
                obtain ⟨hflat, hfine, hpref⟩ := hview idx view₀ hg
                rw [hmap] at hflat
                exact ⟨hflat, hfine, hpref, by rw [hs₂, hs₁]⟩
    · intro l hn s views s' h
      cases l with
      | nil =>
        unfold optVisitList at h
        injection h with h
        obtain ⟨rfl, rfl⟩ := Prod.mk.inj h
        exact ⟨rfl, by simp, rfl⟩
      | cons v vs =>
        unfold optVisitList at h
        rcases hv : optVisitValue ctx v s with e | p
        · rw [hv] at h; exact Except.noConfusion h
        · obtain ⟨view, s₁⟩ := p
          simp only [hv] at h
          rcases hl : optVisitList ctx vs s₁ with e | q
          · rw [hl] at h; exact Except.noConfusion h
          · obtain ⟨views', s₂⟩ := q
            simp only [hl] at h
            injection h with h
            obtain ⟨rfl, rfl⟩ := Prod.mk.inj h
            have hszv : sizeOf v < sizeOf (v :: vs) := by
              simp only [List.cons.sizeOf_spec]; omega
            have hszl : sizeOf vs < sizeOf (v :: vs) := by
              simp only [List.cons.sizeOf_spec]; omega
            obtain ⟨hf, hfi, hpr, hs₁⟩ :=
              (ih (sizeOf v) (lt_of_lt_of_le hszv hn)).1 v le_rfl s view s₁ hv
            obtain ⟨hmap, hall, hs₂⟩ :=
              (ih (sizeOf vs) (lt_of_lt_of_le hszl hn)).2 vs le_rfl s₁ views' s₂ hl
            refine ⟨?_, ?_, by rw [hs₂, hs₁]⟩
            · simp only [List.map_cons, hf, hmap]
            · intro w hw
              rcases List.mem_cons.mp hw with rfl | hw
              · exact ⟨hfi, hpr⟩
              · exact hall w hw

/-- C10: with an empty or absent set of dataset keys — whether or not a
cache dictionary is supplied — no node's view carries a truthy fine-grained
view (the phase-0 `ApplySavedModel` fine-grained dict is empty and hence
treated as absent downstream), no view prefers a fine-grained form, no
cache-output entry is ever produced, and every node's flattened result is
the original value node, so the optimized result equals the plain flattened
graph and the cache-output mapping is `None` or empty according to whether
caching was disabled. -/
theorem empty_dataset_keys_plain_graph (dataset_keys : Option (List String))
    (hdk : dataset_keys.getD [] = []) (cache_dict : Option InputCacheDict)
    (tkp : List (String × Option Bytes)) :
    (∀ v s view s',
      optVisitValue (mkOptCtx dataset_keys cache_dict tkp) v s = .ok (view, s') →
        view.flattened_view = v ∧ fineTruthy view.fine_grained_view = false ∧
        view.prefer_fine_grained_view = false ∧ s' = s) ∧
    (∀ smf opt co,
      perform_cache_optimization smf dataset_keys tkp cache_dict = .ok (opt, co) →
        opt = smf ∧ (co = none ∨ co = some [])) := by
  have hctx : (mkOptCtx dataset_keys cache_dict tkp).dataset_keys = [] := by
    simp [mkOptCtx, hdk, sortStrings]
  have main := fun (v : ValueNode) =>
    optVisit_emptyKeys_aux (mkOptCtx dataset_keys cache_dict tkp) hctx (sizeOf v)
  constructor
  · intro v s view s' h
    exact ((main v).1 v le_rfl s view s' h)
  · intro smf opt co h
    unfold perform_cache_optimization at h
    rcases hres : optVisitValue (mkOptCtx dataset_keys cache_dict tkp) smf []
        with e | p
    · rw [hres] at h; exact Except.noConfusion h
    · obtain ⟨view, con⟩ := p
      simp only [hres] at h
      obtain ⟨hflat, _, _, hcon⟩ := (main smf).1 smf le_rfl [] view con hres
      subst hcon
      cases cache_dict with
      | none =>
        simp only [List.isEmpty_nil, if_true] at h
        injection h with h
        obtain ⟨h1, h2⟩ := Prod.mk.inj h
        exact ⟨by rw [← h1, hflat], Or.inl h2.symm⟩
      | some cd =>
        injection h with h
        obtain ⟨h1, h2⟩ := Prod.mk.inj h
        exact ⟨by rw [← h1, hflat], Or.inr h2.symm⟩

/-- C10 witness: a concrete cacheable chain traversed with no dataset keys
and a supplied cache dictionary is returned unchanged, with no fine-grained
view, no preference, and an untouched empty cache output. -/
theorem empty_dataset_keys_plain_graph_witness :
    ∃ view s', optVisitValue (mkOptCtx none (some []) [])
      (ValueNode.mk ⟨OpKind.other "Comb", "Combine", 1, true, some 7, []⟩
        [ValueNode.mk ⟨OpKind.applySavedModel 0 none, "ASM", 1, true, none, []⟩
          [ValueNode.mk ⟨OpKind.other "CreateSavedModel", "csm", 1, false, none, []⟩ [] 0]
          0] 0) [] = .ok (view, s') ∧
      view.flattened_view =
        ValueNode.mk ⟨OpKind.other "Comb", "Combine", 1, true, some 7, []⟩
          [ValueNode.mk ⟨OpKind.applySavedModel 0 none, "ASM", 1, true, none, []⟩
            [ValueNode.mk ⟨OpKind.other "CreateSavedModel", "csm", 1, false, none, []⟩ [] 0]
            0] 0 ∧
      fineTruthy view.fine_grained_view = false ∧
      view.prefer_fine_grained_view = false ∧ s' = [] := by
  have hok : (optVisitValue (mkOptCtx none (some []) [])
      (ValueNode.mk ⟨OpKind.other "Comb", "Combine", 1, true, some 7, []⟩
        [ValueNode.mk ⟨OpKind.applySavedModel 0 none, "ASM", 1, true, none, []⟩
          [ValueNode.mk ⟨OpKind.other "CreateSavedModel", "csm", 1, false, none, []⟩ [] 0]
          0] 0) []).toOption.isSome = true := by decide
  rcases hres : optVisitValue (mkOptCtx none (some []) [])
      (ValueNode.mk ⟨OpKind.other "Comb", "Combine", 1, true, some 7, []⟩
        [ValueNode.mk ⟨OpKind.applySavedModel 0 none, "ASM", 1, true, none, []⟩
          [ValueNode.mk ⟨OpKind.other "CreateSavedModel", "csm", 1, false, none, []⟩ [] 0]
          0] 0) [] with e | p
  · rw [hres] at hok
    simp [Except.toOption] at hok
  · obtain ⟨view, s'⟩ := p
    have := (empty_dataset_keys_plain_graph none rfl (some []) []).1
      (ValueNode.mk ⟨OpKind.other "Comb", "Combine", 1, true, some 7, []⟩
        [ValueNode.mk ⟨OpKind.applySavedModel 0 none, "ASM", 1, true, none, []⟩
          [ValueNode.mk ⟨OpKind.other "CreateSavedModel", "csm", 1, false, none, []⟩ [] 0]
          0] 0) [] view s' hres
    exact ⟨view, s', rfl, this.1, this.2.1, this.2.2.1, this.2.2.2⟩

theorem allSinksReady_iff (sinks : List TensorSink) (r : List Nat) :
    allSinksReady sinks r = true ↔ unresolvedCount sinks r = 0 := by
  simp [allSinksReady, unresolvedCount, List.length_eq_zero, List.filter_eq_nil_iff,
    List.all_eq_true]

theorem filter_length_mono {α : Type _} (l : List α) (p q : α → Bool)
    (himp : ∀ x ∈ l, q x = true → p x = true) :
    (l.filter q).length ≤ (l.filter p).length := by
  induction l with
  | nil => simp
  | cons a as ih =>
    have ih' := ih (fun x hx => himp x (List.mem_cons_of_mem _ hx))
    by_cases hq : q a = true
    · have hp := himp a (List.mem_cons_self _ _) hq
      rw [List.filter_cons_of_pos hq, List.filter_cons_of_pos hp]
      simpa using ih'
    · rw [List.filter_cons_of_neg (by simpa using hq)]
      by_cases hp : p a = true
      · rw [List.filter_cons_of_pos hp]
        exact le_trans ih' (by simp)
      · rw [List.filter_cons_of_neg (by simpa using hp)]
        exact ih'

theorem filter_length_lt {α : Type _} (l : List α) (p q : α → Bool)
    (himp : ∀ x ∈ l, q x = true → p x = true)
    (x₀ : α) (hx₀ : x₀ ∈ l) (hp : p x₀ = true) (hq : q x₀ = false) :
    (l.filter q).length < (l.filter p).length := by
  induction l with
  | nil => simp at hx₀
  | cons a as ih =>
    have himp' : ∀ x ∈ as, q x = true → p x = true :=
      fun x hx => himp x (List.mem_cons_of_mem _ hx)
    rcases List.mem_cons.mp hx₀ with rfl | hx
    · rw [List.filter_cons_of_neg (by simp [hq]), List.filter_cons_of_pos hp]
      exact Nat.lt_succ_of_le (filter_length_mono as p q himp')
    · have hlt := ih himp' hx
      by_cases hqa : q a = true
      · have hpa := himp a (List.mem_cons_self _ _) hqa
        rw [List.filter_cons_of_pos hqa, List.filter_cons_of_pos hpa]
        simpa using hlt
      · rw [List.filter_cons_of_neg (by simpa using hqa)]
        by_cases hpa : p a = true
        · rw [List.filter_cons_of_pos hpa]
          exact lt_of_lt_of_le hlt (by simp)
        · rw [List.filter_cons_of_neg (by simpa using hpa)]
          exact hlt

theorem exists_min_rank (rank : Nat → Nat) :
    ∀ l : List TensorSink, l ≠ [] →
      ∃ s ∈ l, ∀ t ∈ l, rank s.tensor ≤ rank t.tensor := by
  intro l
  induction l with
  | nil => intro h; contradiction
  | cons a as ih =>
    intro _
    cases as with
    | nil =>
      refine ⟨a, List.mem_cons_self _ _, ?_⟩
      intro t ht
      rcases List.mem_cons.mp ht with rfl | ht
      · exact le_refl _
      · simp at ht
    | cons b bs =>
      obtain ⟨s, hs, hmin⟩ := ih (by simp)
      by_cases hc : rank a.tensor ≤ rank s.tensor
      · refine ⟨a, List.mem_cons_self _ _, ?_⟩
        intro t ht
        rcases List.mem_cons.mp ht with rfl | ht
        · exact le_refl _
        · exact le_trans hc (hmin t ht)
      · refine ⟨s, List.mem_cons_of_mem _ hs, ?_⟩
        intro t ht
        rcases List.mem_cons.mp ht with rfl | ht
        · exact le_of_lt (lt_of_not_le hc)
        · exact hmin t ht

theorem phaseStep_progress (sinks : List TensorSink) (rank : Nat → Nat)
    (hrank : ∀ s ∈ sinks, ∀ d ∈ s.deps, rank d < rank s.tensor)
    (hclosed : ∀ s ∈ sinks, ∀ d ∈ s.deps, ∃ t ∈ sinks, t.tensor = d)
    (r : List Nat) (hne : allSinksReady sinks r = false) :
    unresolvedCount sinks (phaseStep sinks r) < unresolvedCount sinks r := by
  have hUne : sinks.filter (fun s => !(decide (s.tensor ∈ r))) ≠ [] := by
    intro hempty
    have : allSinksReady sinks r = true := by
      apply (allSinksReady_iff sinks r).mpr
      simp [unresolvedCount, hempty]
    rw [this] at hne
    exact Bool.noConfusion hne
  obtain ⟨sstar, hsU, hmin⟩ := exists_min_rank rank _ hUne
  obtain ⟨hsink, hnotr⟩ := List.mem_filter.mp hsU
  have hnotr' : sstar.tensor ∉ r := by simpa using hnotr
  have hdeps : ∀ d ∈ sstar.deps, d ∈ r := by
    intro d hd
    by_contra hdr
    obtain ⟨t, ht, htd⟩ := hclosed sstar hsink d hd
    have htU : t ∈ sinks.filter (fun s => !(decide (s.tensor ∈ r))) :=
      List.mem_filter.mpr ⟨ht, by simp [htd, hdr]⟩
    have h1 := hmin t htU
    have h2 := hrank sstar hsink d hd
    rw [htd] at h1
    omega
  have hready : sinkReady r sstar = true := by
    simp only [sinkReady, List.all_eq_true]
    intro d hd
    exact decide_eq_true (hdeps d hd)
  have hmem : sstar.tensor ∈ phaseStep sinks r := by
    apply List.mem_append_right
    apply List.mem_map.mpr
    exact ⟨sstar, List.mem_filter.mpr ⟨hsink, by simp [hnotr', hready]⟩, rfl⟩
  apply filter_length_lt sinks _ _ ?_ sstar hsink (by simpa using hnotr') (by simpa using hmem)
  intro x _ hqx
  simp only [Bool.not_eq_true', decide_eq_false_iff_not] at hqx ⊢
  intro hxr
  exact hqx (List.mem_append_left _ hxr)

theorem buildPhases_terminates (sinks : List TensorSink) (rank : Nat → Nat)
    (hrank : ∀ s ∈ sinks, ∀ d ∈ s.deps, rank d < rank s.tensor)
    (hclosed : ∀ s ∈ sinks, ∀ d ∈ s.deps, ∃ t ∈ sinks, t.tensor = d) :
    ∀ (k : Nat) (r : List Nat), unresolvedCount sinks r ≤ k →
      ∃ m ≤ k, buildPhases sinks k r = some m := by
  intro k
  induction k with
  | zero =>
    intro r hc
    have hall : allSinksReady sinks r = true :=
      (allSinksReady_iff sinks r).mpr (Nat.le_zero.mp hc)
    exact ⟨0, le_refl _, by simp [buildPhases, hall]⟩
  | succ k ih =>
    intro r hc
    by_cases hall : allSinksReady sinks r = true
    · exact ⟨0, Nat.zero_le _, by simp [buildPhases, hall]⟩
    · have hall' : allSinksReady sinks r = false := by simpa using hall
      have hlt := phaseStep_progress sinks rank hrank hclosed r hall'
      obtain ⟨m, hm, hbp⟩ := ih (phaseStep sinks r) (by omega)
      exact ⟨m + 1, by omega, by simp [buildPhases, hall', hbp]⟩

theorem buildPhases_cycle (sinks : List TensorSink) (C : List Nat)
    (hwit : ∃ s ∈ sinks, s.tensor ∈ C)
    (hcyc : ∀ s ∈ sinks, s.tensor ∈ C → ∃ d ∈ s.deps, d ∈ C) :
    ∀ (fuel : Nat) (r : List Nat), (∀ c ∈ C, c ∉ r) →
      buildPhases sinks fuel r = none := by
  have hall : ∀ r : List Nat, (∀ c ∈ C, c ∉ r) → allSinksReady sinks r = false := by
    intro r hdis
    obtain ⟨s, hs, hsC⟩ := hwit
    apply (Bool.eq_false_iff).mpr
    intro htrue
    have := List.all_eq_true.mp htrue s hs
    exact hdis s.tensor hsC (by simpa using this)
  intro fuel
  induction fuel with
  | zero =>
    intro r hdis
    simp [buildPhases, hall r hdis]
  | succ f ih =>
    intro r hdis
    have hpres : ∀ c ∈ C, c ∉ phaseStep sinks r := by
      intro c hc hmem
      rcases List.mem_append.mp hmem with hmr | hmnew
      · exact hdis c hc hmr
      · obtain ⟨s, hsf, hst⟩ := List.mem_map.mp hmnew
        obtain ⟨hssinks, hcond⟩ := List.mem_filter.mp hsf
        obtain ⟨d, hd, hdC⟩ := hcyc s hssinks (hst ▸ hc)
        have hready : sinkReady r s = true := by
          simp only [Bool.and_eq_true] at hcond
          exact hcond.2
        have hdr : d ∈ r := by
          simp only [sinkReady, List.all_eq_true, decide_eq_true_eq] at hready
          exact hready d hd
        exact hdis d hdC hdr
    simp [buildPhases, hall r hdis, ih (phaseStep sinks r) hpres]

/-- C2: starting from the all-unresolved state, the phase loop of `build`
terminates for every acyclic dependency structure of the tensor sinks — each
iteration resolves at least one previously-unresolved sink, so a fuel of one
iteration per sink suffices and the phase count is at most the number of
sinks; and when the sinks contain a genuine circular dependency (a nonempty
set of sink tensors each of which depends on another member), the loop never
terminates, however much fuel is granted — no cycle check is performed. -/
theorem build_phase_loop_behavior :
    (∀ (sinks : List TensorSink) (rank : Nat → Nat),
      (∀ s ∈ sinks, ∀ d ∈ s.deps, rank d < rank s.tensor) →
      (∀ s ∈ sinks, ∀ d ∈ s.deps, ∃ t ∈ sinks, t.tensor = d) →
      ∃ m ≤ sinks.length, buildPhases sinks sinks.length [] = some m) ∧
    (∀ (sinks : List TensorSink) (C : List Nat),
      (∃ s ∈ sinks, s.tensor ∈ C) →
      (∀ s ∈ sinks, s.tensor ∈ C → ∃ d ∈ s.deps, d ∈ C) →
      ∀ fuel : Nat, buildPhases sinks fuel [] = none) := by
  constructor
  · intro sinks rank hrank hclosed
    apply buildPhases_terminates sinks rank hrank hclosed sinks.length []
    exact List.length_filter_le _ _
  · intro sinks C hwit hcyc fuel
    exact buildPhases_cycle sinks C hwit hcyc fuel [] (by simp)

/-- C2 witness: a two-sink chain resolves in two phases within two
iterations, while two mutually-dependent sinks never finish even with ample
fuel. -/
theorem build_phase_loop_behavior_witness :
    (∃ m ≤ ([⟨0, []⟩, ⟨1, [0]⟩] : List TensorSink).length,
      buildPhases [⟨0, []⟩, ⟨1, [0]⟩] ([⟨0, []⟩, ⟨1, [0]⟩] : List TensorSink).length []
        = some m) ∧
    buildPhases [⟨0, [1]⟩, ⟨1, [0]⟩] 7 [] = none :=
  ⟨build_phase_loop_behavior.1 [⟨0, []⟩, ⟨1, [0]⟩] id (by decide) (by decide),
   build_phase_loop_behavior.2 [⟨0, [1]⟩, ⟨1, [0]⟩] [0, 1] (by decide) (by decide) 7⟩
